import Mathlib

/-!
# Huffman compression (`src/main.cpp`): shallow embedding and verified properties

Conventions of the embedding.

* `uint8_t` is `Fin 256`; `int` is `Int` wrapped to 32 bits by `wrapInt` wherever the
  source does arithmetic or a narrowing conversion (signed overflow, undefined in C++, is
  modelled as two's complement wrap); `size_t` is `Nat` (64 bit in `toSizeT`).
* A `std::string` of the characters `'0'` and `'1'` is a `List Bool` (`'0'` is `false`,
  `'1'` is `true`); the source never puts any other character in such a string.
* The two global `unordered_map`s are association lists with unique keys, threaded through
  the functions as an explicit `Tables` state.
* A file is the list of its bytes; a file that cannot be opened is `none`.
* `std::priority_queue` is a list of nodes; which of several minimum-frequency nodes is on
  top is left to an arbitrary oracle `TieBreak`, so that a statement proved for every oracle
  holds for every heap implementation and every iteration order of the frequency map.
* `pq.top()` on an empty queue is undefined behaviour; the model returns `none` there.
-/

namespace Huffman

/-- One byte, the `uint8_t` of the source. -/
abbrev Symbol := Fin 256

/-- One byte of a file. -/
abbrev Byte := Fin 256

/-- A bit string, the `std::string` over `'0'` and `'1'` of the source. -/
abbrev Code := List Bool

/-- Two's complement wrap of an integer to the 32-bit `int` of the source. -/
def wrapInt (x : Int) : Int := (x + 2147483648) % 4294967296 - 2147483648

/-- Conversion of an `int` to the 64-bit unsigned `size_t` (as in `size() < encodedBits`). -/
def toSizeT (x : Int) : Nat := (x % 18446744073709551616).toNat

/-- The `struct Node` of the source: a node built by the constructor has two null children
(`leaf`), a node built by the merge loop has two non-null children (`inner`). -/
inductive Node where
  | leaf (value : Symbol) (freq : Int)
  | inner (value : Symbol) (freq : Int) (left right : Node)
  deriving DecidableEq, Repr

/-- Field `freq` of a node. -/
def Node.freq : Node → Int
  | .leaf _ f => f
  | .inner _ f _ _ => f

/-- Field `value` of a node. -/
def Node.value : Node → Symbol
  | .leaf v _ => v
  | .inner v _ _ _ => v

/-- The comparison `Compare::operator()`: `l->freq > r->freq`. -/
def Compare (l r : Node) : Bool := decide (l.freq > r.freq)

/-- Oracle choosing, from the queue contents, the position of the node the heap has on top;
it is consulted only among the nodes that may legally be on top. -/
abbrev TieBreak := List Node → Nat

/-- A node may be on top of the queue when it does not compare above any queued node. -/
def isTopAt (q : List Node) (i : Nat) : Bool :=
  match q[i]? with
  | some n => q.all (fun m => !Compare n m)
  | none => false

/-- Position of the first node that may be on top. -/
def firstTop (q : List Node) : Nat :=
  q.findIdx (fun n => q.all (fun m => !Compare n m))

/-- Position of the node on top of the queue under the oracle. -/
def topIdx (tb : TieBreak) (q : List Node) : Nat :=
  if isTopAt q (tb q) then tb q else firstTop q

/-- The call `pq.top()`; `none` on an empty queue, where the source is undefined. -/
def pqTop (tb : TieBreak) (q : List Node) : Option Node := q[topIdx tb q]?

/-- The call `pq.pop()`. -/
def pqPop (tb : TieBreak) (q : List Node) : List Node := q.eraseIdx (topIdx tb q)

/-- The call `pq.push(n)`. -/
def pqPush (q : List Node) (n : Node) : List Node := q ++ [n]

/-- One pass through the body of the `while` loop of `buildHuffmanTree`. -/
def mergeStep (tb : TieBreak) (q : List Node) : Option (List Node) :=
  match pqTop tb q with
  | none => none
  | some left =>
    let q1 := pqPop tb q
    match pqTop tb q1 with
    | none => none
    | some right =>
      let q2 := pqPop tb q1
      some (pqPush q2 (Node.inner 0 (wrapInt (left.freq + right.freq)) left right))

/-- The loop `while (pq.size() > 1)` of `buildHuffmanTree`, with a bound on the passes. -/
def mergeLoop (tb : TieBreak) : Nat → List Node → Option (List Node)
  | 0, q => some q
  | fuel + 1, q =>
    if q.length > 1 then
      match mergeStep tb q with
      | none => none
      | some q3 => mergeLoop tb fuel q3
    else some q

/-- The queue after the loop `for (auto& pair : freqMap) pq.push(new Node(...))`. -/
def initialQueue (freqMap : List (Symbol × Int)) : List Node :=
  freqMap.foldl (fun pq pair => pqPush pq (Node.leaf pair.1 pair.2)) []

/-- The function `buildHuffmanTree`; the frequency map is given as the list of its entries in
iteration order. Every pass of the loop shortens the queue by one, so the queue length
bounds the passes. -/
def buildHuffmanTree (tb : TieBreak) (freqMap : List (Symbol × Int)) : Option Node :=
  let pq := initialQueue freqMap
  match mergeLoop tb pq.length pq with
  | none => none
  | some q => pqTop tb q

/-- Lookup `m.find(k)` in a map. -/
def mapFind {κ ν : Type} [DecidableEq κ] (m : List (κ × ν)) (k : κ) : Option ν :=
  match m with
  | [] => none
  | e :: es => if e.1 = k then some e.2 else mapFind es k

/-- Assignment `m[k] = v` in a map. -/
def mapSet {κ ν : Type} [DecidableEq κ] (m : List (κ × ν)) (k : κ) (v : ν) : List (κ × ν) :=
  (k, v) :: m.filter (fun e => decide (e.1 ≠ k))

/-- The global tables `huffmanCode` and `reverseCode`. -/
structure Tables where
  huffmanCode : List (Symbol × Code)
  reverseCode : List (Code × Symbol)
  deriving DecidableEq, Repr

/-- The tables at program start. -/
def Tables.empty : Tables := ⟨[], []⟩

/-- The function `generateCodes` on a non-null node. The two calls on the null children of a
leaf return at once. -/
def generateCodesNode : Node → Code → Tables → Tables
  | .leaf v _, str, t =>
    { huffmanCode := mapSet t.huffmanCode v str, reverseCode := mapSet t.reverseCode str v }
  | .inner _ _ l r, str, t =>
    generateCodesNode r (str ++ [true]) (generateCodesNode l (str ++ [false]) t)

/-- The function `generateCodes`, null root included. -/
def generateCodes (root : Option Node) (str : Code) (t : Tables) : Tables :=
  match root with
  | none => t
  | some n => generateCodesNode n str t

/-- The function `calculateFrequency`: the entries of the map it returns. -/
def calculateFrequency (data : List Symbol) : List (Symbol × Int) :=
  data.foldl (fun freqMap byte => mapSet freqMap byte (wrapInt ((mapFind freqMap byte).getD 0 + 1))) []

/-- The expression `huffmanCode[byte]` read as a value: `operator[]` inserts an empty string
for a missing key. -/
def mapIndex (m : List (Symbol × Code)) (k : Symbol) : Code × List (Symbol × Code) :=
  match mapFind m k with
  | some c => (c, m)
  | none => ([], mapSet m k [])

/-- The loop `for (auto byte : data) encodedString += huffmanCode[byte]`. -/
def encodeLoop (data : List Symbol) (hc : List (Symbol × Code)) : List (Symbol × Code) × Code :=
  data.foldl (fun st byte => ((mapIndex st.1 byte).2, st.2 ++ (mapIndex st.1 byte).1)) (hc, [])

/-- The four bytes `out.write((char*)&encodedBits, sizeof(int))` puts in the file
(little-endian two's complement). -/
def intBytes (x : Int) : List Byte :=
  let u := (x % 4294967296).toNat
  [Fin.ofNat u, Fin.ofNat (u / 256), Fin.ofNat (u / 65536), Fin.ofNat (u / 16777216)]

/-- The byte built by the inner loop of the packer for the group of bits starting at `i`. -/
def packByte (s : Code) (i : Nat) : Byte :=
  Fin.ofNat ((List.range 8).foldl
    (fun byte j => if i + j < s.length then byte ||| ((if s.getD (i + j) false then 1 else 0) <<< (7 - j)) else byte) 0)

/-- The outer loop of the packer: one byte for every `i = 0, 8, 16, ...` below the size. -/
def packBits (s : Code) : List Byte :=
  (List.range ((s.length + 7) / 8)).map (fun k => packByte s (8 * k))

/-- The function `huffmanEncode`: the tables it leaves behind and the bytes of the file it
writes; `none` when `buildHuffmanTree` calls `top()` on an empty queue. -/
def huffmanEncode (tb : TieBreak) (data : List Symbol) (t : Tables) : Option (Tables × List Byte) :=
  let freqMap := calculateFrequency data
  match buildHuffmanTree tb freqMap with
  | none => none
  | some root =>
    let t1 := generateCodes (some root) [] t
    let st := encodeLoop data t1.huffmanCode
    let encodedBits := wrapInt st.2.length
    some ({ huffmanCode := st.1, reverseCode := t1.reverseCode }, intBytes encodedBits ++ packBits st.2)

/-- The string `encodedString` that `huffmanEncode` builds before packing it (empty when the
tree cannot be built); its size is the bit count of the encoding. -/
def encodedString (tb : TieBreak) (data : List Symbol) (t : Tables) : Code :=
  match buildHuffmanTree tb (calculateFrequency data) with
  | none => []
  | some root => (encodeLoop data (generateCodes (some root) [] t).huffmanCode).2

/-- The `int` read back from four bytes. -/
def bytesInt (b0 b1 b2 b3 : Byte) : Int :=
  wrapInt (b0.val + 256 * b1.val + 65536 * b2.val + 16777216 * b3.val)

/-- The read loop of `huffmanDecode`: every byte gives its bits from bit 7 down to bit 0,
each appended only while the string is shorter than `encodedBits`. -/
def readBits (encodedBits : Int) (bytes : List Byte) : Code :=
  bytes.foldl (fun s byte =>
    [7, 6, 5, 4, 3, 2, 1, 0].foldl (fun s i =>
      if s.length < toSizeT encodedBits then s ++ [decide ((byte.val >>> i) &&& 1 ≠ 0)] else s) s) []

/-- One pass of the loop `for (char bit : encodedString)` of `huffmanDecode` on the state
`(decodedData, temp)`. -/
def decodeStep (rc : List (Code × Symbol)) (st : List Symbol × Code) (bit : Bool) : List Symbol × Code :=
  match mapFind rc (st.2 ++ [bit]) with
  | some v => (st.1 ++ [v], [])
  | none => (st.1, st.2 ++ [bit])

/-- The loop `for (char bit : encodedString)`: final `(decodedData, temp)`. -/
def decodeLoop (rc : List (Code × Symbol)) (bits : Code) : List Symbol × Code :=
  bits.foldl (decodeStep rc) ([], [])

/-- The function `huffmanDecode`. A file shorter than the four header bytes leaves the stream
failed, so that the read loop ends at once with no bits. -/
def huffmanDecode (file : Option (List Byte)) (t : Tables) : List Symbol :=
  match file with
  | none => []
  | some (b0 :: b1 :: b2 :: b3 :: rest) =>
    (decodeLoop t.reverseCode (readBits (bytesInt b0 b1 b2 b3) rest)).1
  | some _ => []

/-- The loop of `verifyData` from index `i` on: the index of the first position at which the
two sequences differ (the one reported on `cerr`), if there is one. -/
def verifyMismatch : List Symbol → List Symbol → Nat → Option Nat
  | a :: as, b :: bs, i => if a ≠ b then some i else verifyMismatch as bs (i + 1)
  | _, _, _ => none

/-- The function `verifyData`. -/
def verifyData (original reconstructed : List Symbol) : Bool :=
  if original.length ≠ reconstructed.length then false
  else (verifyMismatch original reconstructed 0).isNone

/-- The exit status of `main` as a function of the image data `readBMP` returned (empty when
the image cannot be read): the guard on empty data, then encoding, decoding of the file just
written and the verification of the decoded data. What follows the verification (the metrics
and the output image) does not change the status. `none` stands for the undefined behaviour of
`top()` on an empty queue. -/
def main (tb : TieBreak) (originalData : List Symbol) : Option Int :=
  if originalData.isEmpty then some (-1)
  else
    match huffmanEncode tb originalData Tables.empty with
    | none => none
    | some (t, blob) =>
      let decodedData := huffmanDecode (some blob) t
      if !verifyData originalData decodedData then some (-1) else some 0

/-! ## Quantities the properties are stated with -/

/-- The leaves of a tree from left to right, each as the entry `(symbol, frequency)`. -/
def Node.leaves : Node → List (Symbol × Int)
  | .leaf v f => [(v, f)]
  | .inner _ _ l r => l.leaves ++ r.leaves

/-- The root-to-leaf paths of a tree from left to right (`false` for a left edge, `true` for a
right edge), each with the symbol of its leaf. -/
def Node.paths : Node → List (Symbol × Code)
  | .leaf v _ => [(v, [])]
  | .inner _ _ l r =>
    l.paths.map (fun e => (e.1, false :: e.2)) ++ r.paths.map (fun e => (e.1, true :: e.2))

/-- The leaves of a tree whose root is at depth `d`, each as `(frequency, depth)`. -/
def Node.leafDepths : Node → Nat → List (Int × Nat)
  | .leaf _ f, d => [(f, d)]
  | .inner _ _ l r, d => l.leafDepths (d + 1) ++ r.leafDepths (d + 1)

/-- Sum of frequency times depth over a list of `(frequency, depth)` pairs. -/
def cost (L : List (Int × Nat)) : Int := (L.map (fun e => e.1 * (e.2 : Int))).sum

/-- Total weighted path length of a tree: the sum over its leaves of frequency times depth. -/
def Node.wpl (n : Node) : Int := cost (n.leafDepths 0)

/-- Sum of the leaf frequencies of a tree. -/
def Node.weight : Node → Int
  | .leaf _ f => f
  | .inner _ _ l r => l.weight + r.weight

/-- Sum of the absolute values of the leaf frequencies of a tree. -/
def Node.absWeight : Node → Nat
  | .leaf _ f => f.natAbs
  | .inner _ _ l r => l.absWeight + r.absWeight

/-- Kraft sum of a list of `(frequency, depth)` pairs: the sum of `2^(-depth)`. -/
def kraft (L : List (Int × Nat)) : ℚ := (L.map (fun e => (1 / 2 : ℚ) ^ e.2)).sum

/-- Shape invariant of a tree: every inner node carries the sum of the frequencies of its two
children, and its left child is no more frequent than its right child. -/
def Node.ShapeOk : Node → Prop
  | .leaf _ _ => True
  | .inner _ f l r => f = l.freq + r.freq ∧ l.freq ≤ r.freq ∧ l.ShapeOk ∧ r.ShapeOk

/-- The eight bits of a byte from bit 7 down to bit 0. -/
def byteBits (b : Byte) : Code :=
  [7, 6, 5, 4, 3, 2, 1, 0].map (fun i => decide ((b.val >>> i) &&& 1 ≠ 0))

/-- All bits of a sequence of bytes, most significant bit of each byte first. -/
def allBits (bytes : List Byte) : Code := bytes.flatMap byteBits

/-- The code the forward table holds for a symbol (empty when it holds none). -/
def codeOf (hc : List (Symbol × Code)) (s : Symbol) : Code := (mapFind hc s).getD []


/-! ## The priority queue -/

theorem exists_min_freq (q : List Node) (hq : q ≠ []) :
    ∃ n ∈ q, ∀ m ∈ q, n.freq ≤ m.freq := by
  induction q with
  | nil => exact absurd rfl hq
  | cons a as ih =>
    by_cases has : as = []
    · subst has
      exact ⟨a, by simp, by simp⟩
    · obtain ⟨n, hn, hmin⟩ := ih has
      by_cases hle : a.freq ≤ n.freq
      · refine ⟨a, by simp, ?_⟩
        intro m hm
        rcases List.mem_cons.1 hm with rfl | hm
        · exact le_refl _
        · exact le_trans hle (hmin m hm)
      · refine ⟨n, List.mem_cons_of_mem _ hn, ?_⟩
        intro m hm
        rcases List.mem_cons.1 hm with rfl | hm
        · omega
        · exact hmin m hm

theorem all_not_Compare (q : List Node) (n : Node) :
    q.all (fun m => !Compare n m) = true ↔ ∀ m ∈ q, n.freq ≤ m.freq := by
  simp [List.all_eq_true, Compare]

theorem topIdx_spec (tb : TieBreak) (q : List Node) (hq : q ≠ []) :
    ∃ n, q[topIdx tb q]? = some n ∧ ∀ m ∈ q, n.freq ≤ m.freq := by
  unfold topIdx
  by_cases h : isTopAt q (tb q) = true
  · rw [if_pos h]
    unfold isTopAt at h
    cases hg : q[tb q]? with
    | none => rw [hg] at h; exact absurd h (by simp)
    | some n =>
      rw [hg] at h
      exact ⟨n, rfl, (all_not_Compare q n).1 h⟩
  · rw [if_neg h]
    obtain ⟨n, hn, hmin⟩ := exists_min_freq q hq
    have hlt : firstTop q < q.length := by
      unfold firstTop
      exact List.findIdx_lt_length_of_exists ⟨n, hn, (all_not_Compare q n).2 hmin⟩
    refine ⟨q[firstTop q], List.getElem?_eq_getElem hlt, ?_⟩
    have := @List.findIdx_getElem _ (fun n => q.all (fun m => !Compare n m)) q hlt
    exact (all_not_Compare q _).1 this

/-- On a non-empty queue `top()` returns a queued node of least frequency, and `pop()` removes
exactly that node. -/
theorem pqTop_pqPop (tb : TieBreak) (q : List Node) (hq : q ≠ []) :
    ∃ n, pqTop tb q = some n ∧ (∀ m ∈ q, n.freq ≤ m.freq) ∧ q.Perm (n :: pqPop tb q) := by
  obtain ⟨n, hn, hmin⟩ := topIdx_spec tb q hq
  refine ⟨n, hn, hmin, ?_⟩
  unfold pqPop
  obtain ⟨hlt, hget⟩ := List.getElem?_eq_some_iff.1 hn
  have h1 : q.eraseIdx (topIdx tb q) = q.take (topIdx tb q) ++ q.drop (topIdx tb q + 1) :=
    List.eraseIdx_eq_take_drop_succ q _
  rw [h1]
  have h2 : q = q.take (topIdx tb q) ++ n :: q.drop (topIdx tb q + 1) := by
    rw [← hget]
    simp
  conv_lhs => rw [h2]
  exact List.perm_middle

theorem pqTop_nil (tb : TieBreak) : pqTop tb [] = none := by
  simp [pqTop]

/-- One pass of the merge loop on a queue of at least two nodes: it takes out a node `l` of
least frequency, then a node `r` of least frequency among the rest, and puts back their
parent. -/
theorem mergeStep_spec (tb : TieBreak) (q : List Node) (hq : 2 ≤ q.length) :
    ∃ l r rest, mergeStep tb q = some (rest ++ [Node.inner 0 (wrapInt (l.freq + r.freq)) l r]) ∧
      q.Perm (l :: r :: rest) ∧ (∀ m ∈ r :: rest, l.freq ≤ m.freq) ∧
      (∀ m ∈ rest, r.freq ≤ m.freq) := by
  have hne : q ≠ [] := by
    intro h; subst h; simp at hq
  obtain ⟨l, hl, hlmin, hlperm⟩ := pqTop_pqPop tb q hne
  have hlen : (pqPop tb q).length + 1 = q.length := by
    have := hlperm.length_eq
    simpa using this.symm
  have hne1 : pqPop tb q ≠ [] := by
    intro h; rw [h] at hlen; simp at hlen; omega
  obtain ⟨r, hr, hrmin, hrperm⟩ := pqTop_pqPop tb (pqPop tb q) hne1
  refine ⟨l, r, pqPop tb (pqPop tb q), ?_, ?_, ?_, ?_⟩
  · simp [mergeStep, hl, hr, pqPush]
  · exact hlperm.trans (List.Perm.cons l hrperm)
  · intro m hm
    exact hlmin m (hlperm.mem_iff.2 (List.mem_cons_of_mem _ (hrperm.mem_iff.2 hm)))
  · intro m hm
    exact hrmin m (hrperm.mem_iff.2 (List.mem_cons_of_mem _ hm))

/-- Induction principle for the merge loop: a property of the queue contents that does not
depend on their order and survives one merge of two least-frequency nodes holds of the single
tree the loop ends with; with fuel at least the queue length less one the loop does end with
a single tree. -/
theorem mergeLoop_inv (tb : TieBreak) (Inv : List Node → Prop)
    (hperm : ∀ q q1, q.Perm q1 → Inv q → Inv q1)
    (hstep : ∀ l r rest, Inv (l :: r :: rest) → (∀ m ∈ r :: rest, l.freq ≤ m.freq) →
      (∀ m ∈ rest, r.freq ≤ m.freq) →
      Inv (Node.inner 0 (wrapInt (l.freq + r.freq)) l r :: rest)) :
    ∀ (fuel : Nat) (q : List Node), q ≠ [] → q.length ≤ fuel + 1 → Inv q →
      ∃ root, mergeLoop tb fuel q = some [root] ∧ Inv [root] := by
  intro fuel
  induction fuel with
  | zero =>
    intro q hne hlen hinv
    match q, hne, hlen, hinv with
    | [a], _, _, hinv => exact ⟨a, rfl, hinv⟩
    | _ :: _ :: _, _, hlen, _ => simp at hlen
  | succ fuel ih =>
    intro q hne hlen hinv
    by_cases h1 : q.length > 1
    · obtain ⟨l, r, rest, hstepeq, hp, hlmin, hrmin⟩ := mergeStep_spec tb q h1
      have hinv1 : Inv (rest ++ [Node.inner 0 (wrapInt (l.freq + r.freq)) l r]) := by
        apply hperm (Node.inner 0 (wrapInt (l.freq + r.freq)) l r :: rest)
        · exact (List.perm_append_singleton _ _).symm
        · exact hstep l r rest (hperm _ _ hp hinv) hlmin hrmin
      have hlen1 : (rest ++ [Node.inner 0 (wrapInt (l.freq + r.freq)) l r]).length ≤ fuel + 1 := by
        have := hp.length_eq
        simp at this ⊢
        omega
      obtain ⟨root, hroot, hinvr⟩ := ih _ (by simp) hlen1 hinv1
      refine ⟨root, ?_, hinvr⟩
      simp only [mergeLoop, h1, if_true, hstepeq]
      exact hroot
    · match q, hne, h1, hinv with
      | [a], _, _, hinv => exact ⟨a, by simp [mergeLoop], hinv⟩
      | _ :: _ :: _, _, h1, _ => simp at h1

theorem initialQueue_eq (freqMap : List (Symbol × Int)) :
    initialQueue freqMap = freqMap.map (fun p => Node.leaf p.1 p.2) := by
  unfold initialQueue
  have h : ∀ (m : List (Symbol × Int)) (acc : List Node),
      m.foldl (fun pq pair => pqPush pq (Node.leaf pair.1 pair.2)) acc
        = acc ++ m.map (fun p => Node.leaf p.1 p.2) := by
    intro m
    induction m with
    | nil => intro acc; simp
    | cons a as ih =>
      intro acc
      rw [List.foldl_cons, ih]
      simp [pqPush]
  simpa using h freqMap []

theorem pqTop_singleton (tb : TieBreak) (n : Node) : pqTop tb [n] = some n := by
  obtain ⟨m, hm, _, hp⟩ := pqTop_pqPop tb [n] (by simp)
  have : m ∈ [n] := hp.mem_iff.2 (List.mem_cons_self _ _)
  rw [hm]
  simp at this
  rw [this]

/-- Induction principle for `buildHuffmanTree`: on a non-empty frequency map it returns a
tree, and an order-independent property of the initial leaves that survives every merge of
two least-frequency nodes holds of that tree. -/
theorem buildHuffmanTree_inv (tb : TieBreak) (Inv : List Node → Prop)
    (hperm : ∀ q q1, q.Perm q1 → Inv q → Inv q1)
    (hstep : ∀ l r rest, Inv (l :: r :: rest) → (∀ m ∈ r :: rest, l.freq ≤ m.freq) →
      (∀ m ∈ rest, r.freq ≤ m.freq) →
      Inv (Node.inner 0 (wrapInt (l.freq + r.freq)) l r :: rest))
    (freqMap : List (Symbol × Int)) (hne : freqMap ≠ [])
    (hinit : Inv (freqMap.map (fun p => Node.leaf p.1 p.2))) :
    ∃ root, buildHuffmanTree tb freqMap = some root ∧ Inv [root] := by
  have hq : initialQueue freqMap ≠ [] := by
    rw [initialQueue_eq]; simpa using hne
  obtain ⟨root, hroot, hinv⟩ := mergeLoop_inv tb Inv hperm hstep (initialQueue freqMap).length
    (initialQueue freqMap) hq (by omega) (by rw [initialQueue_eq]; exact hinit)
  refine ⟨root, ?_, hinv⟩
  simp [buildHuffmanTree, hroot, pqTop_singleton]

theorem buildHuffmanTree_nil (tb : TieBreak) : buildHuffmanTree tb [] = none := by
  simp [buildHuffmanTree, initialQueue, mergeLoop, pqTop_nil]

/-! ## Maps -/

theorem mapFind_filter_ne {κ ν : Type} [DecidableEq κ] (m : List (κ × ν)) (k k1 : κ)
    (h : k1 ≠ k) : mapFind (m.filter (fun e => decide (e.1 ≠ k))) k1 = mapFind m k1 := by
  induction m with
  | nil => rfl
  | cons e es ih =>
    by_cases he : e.1 = k
    · have h1 : ¬ e.1 = k1 := by rw [he]; exact fun h1 => h h1.symm
      rw [List.filter_cons_of_neg (by simp [he]), ih]
      simp only [mapFind, if_neg h1]
    · rw [List.filter_cons_of_pos (by simp [he])]
      by_cases he1 : e.1 = k1
      · simp only [mapFind, if_pos he1]
      · simp only [mapFind, if_neg he1, ih]

theorem mapFind_mapSet_self {κ ν : Type} [DecidableEq κ] (m : List (κ × ν)) (k : κ) (v : ν) :
    mapFind (mapSet m k v) k = some v := by
  simp [mapSet, mapFind]

theorem mapFind_mapSet_ne {κ ν : Type} [DecidableEq κ] (m : List (κ × ν)) (k k1 : κ) (v : ν)
    (h : k1 ≠ k) : mapFind (mapSet m k v) k1 = mapFind m k1 := by
  have h1 : ¬ k = k1 := fun e => h e.symm
  simp only [mapSet, mapFind, if_neg h1]
  exact mapFind_filter_ne m k k1 h

theorem mapFind_eq_none {κ ν : Type} [DecidableEq κ] (m : List (κ × ν)) (k : κ) :
    mapFind m k = none ↔ k ∉ m.map Prod.fst := by
  induction m with
  | nil => simp [mapFind]
  | cons e es ih =>
    by_cases he : e.1 = k
    · simp [mapFind, he]
    · have : ¬ k = e.1 := fun h => he h.symm
      simp [mapFind, he, ih, this]

theorem mapFind_mem {κ ν : Type} [DecidableEq κ] (m : List (κ × ν)) (k : κ) (v : ν)
    (h : mapFind m k = some v) : (k, v) ∈ m := by
  induction m with
  | nil => simp [mapFind] at h
  | cons e es ih =>
    by_cases he : e.1 = k
    · simp [mapFind, he] at h
      rw [← he, ← h]
      simp
    · simp [mapFind, he] at h
      exact List.mem_cons_of_mem _ (ih h)

theorem mapFind_of_mem {κ ν : Type} [DecidableEq κ] (m : List (κ × ν)) (k : κ) (v : ν)
    (hnd : (m.map Prod.fst).Nodup) (h : (k, v) ∈ m) : mapFind m k = some v := by
  induction m with
  | nil => simp at h
  | cons e es ih =>
    rw [List.map_cons, List.nodup_cons] at hnd
    rcases List.mem_cons.1 h with h1 | h1
    · simp [mapFind, ← h1]
    · have hk : k ∈ es.map Prod.fst := List.mem_map.2 ⟨(k, v), h1, rfl⟩
      have he : e.1 ≠ k := by
        intro h2; rw [h2] at hnd; exact hnd.1 hk
      simp [mapFind, he, ih hnd.2 h1]

/-- The map after the assignments `m[e.1] = e.2` for the entries `e` of a list, in order. -/
theorem mapFind_foldl_mapSet {κ ν : Type} [DecidableEq κ] (E : List (κ × ν)) :
    ∀ (m : List (κ × ν)) (k : κ),
      (k ∉ E.map Prod.fst → mapFind (E.foldl (fun m e => mapSet m e.1 e.2) m) k = mapFind m k) ∧
      ((E.map Prod.fst).Nodup → ∀ v, (k, v) ∈ E →
        mapFind (E.foldl (fun m e => mapSet m e.1 e.2) m) k = some v) := by
  induction E with
  | nil => intro m k; simp
  | cons e es ih =>
    intro m k
    constructor
    · intro hk
      simp only [List.map_cons, List.mem_cons, not_or] at hk
      rw [List.foldl_cons, (ih _ k).1 hk.2]
      exact mapFind_mapSet_ne m e.1 k e.2 hk.1
    · intro hnd v hv
      rw [List.map_cons, List.nodup_cons] at hnd
      rw [List.foldl_cons]
      rcases List.mem_cons.1 hv with h1 | h1
      · have hk : k ∉ es.map Prod.fst := by rw [← h1] at hnd; exact hnd.1
        rw [(ih _ k).1 hk, ← h1]
        exact mapFind_mapSet_self m k v
      · exact (ih _ k).2 hnd.2 v h1

theorem mapSet_keys_nodup {κ ν : Type} [DecidableEq κ] (m : List (κ × ν)) (k : κ) (v : ν)
    (h : (m.map Prod.fst).Nodup) : ((mapSet m k v).map Prod.fst).Nodup := by
  unfold mapSet
  rw [List.map_cons, List.nodup_cons]
  constructor
  · intro hk
    obtain ⟨e, he, hek⟩ := List.mem_map.1 hk
    have := (List.mem_filter.1 he).2
    simp at this
    exact this hek
  · exact (List.Nodup.sublist (List.Sublist.map _ (List.filter_sublist _)) h)

/-! ## Trees and code tables -/

theorem paths_keys (n : Node) : n.paths.map Prod.fst = n.leaves.map Prod.fst := by
  induction n with
  | leaf v f => rfl
  | inner v f l r ihl ihr =>
    simp only [Node.paths, Node.leaves, List.map_append, List.map_map, ← ihl, ← ihr]
    rfl

/-- No path of a tree is a beginning of the path of another leaf. -/
theorem paths_pairwise (n : Node) :
    n.paths.Pairwise (fun a b => ¬ a.2 <+: b.2 ∧ ¬ b.2 <+: a.2) := by
  induction n with
  | leaf v f => simp [Node.paths]
  | inner v f l r ihl ihr =>
    simp only [Node.paths]
    rw [List.pairwise_append]
    refine ⟨?_, ?_, ?_⟩
    · rw [List.pairwise_map]
      refine ihl.imp ?_
      intro a b hab
      simpa [List.cons_prefix_cons] using hab
    · rw [List.pairwise_map]
      refine ihr.imp ?_
      intro a b hab
      simpa [List.cons_prefix_cons] using hab
    · intro a ha b hb
      obtain ⟨a1, _, rfl⟩ := List.mem_map.1 ha
      obtain ⟨b1, _, rfl⟩ := List.mem_map.1 hb
      simp [List.cons_prefix_cons]

theorem paths_ne_nil (v : Symbol) (f : Int) (l r : Node) :
    ∀ e ∈ (Node.inner v f l r).paths, e.2 ≠ [] := by
  intro e he
  simp only [Node.paths, List.mem_append, List.mem_map] at he
  rcases he with ⟨a, _, rfl⟩ | ⟨a, _, rfl⟩ <;> simp

/-- The assignments `generateCodes` makes, in order: one for every leaf, with the string
`str` extended by the path to the leaf. -/
theorem generateCodesNode_eq (n : Node) :
    ∀ (str : Code) (t : Tables), generateCodesNode n str t =
      (n.paths.map (fun e => (e.1, str ++ e.2))).foldl
        (fun t e => ⟨mapSet t.huffmanCode e.1 e.2, mapSet t.reverseCode e.2 e.1⟩) t := by
  induction n with
  | leaf v f => intro str t; simp [generateCodesNode, Node.paths]
  | inner v f l r ihl ihr =>
    intro str t
    simp only [generateCodesNode, Node.paths, List.map_append, List.foldl_append, List.map_map]
    rw [ihl, ihr]
    simp [Function.comp_def]

theorem foldl_tables_huffmanCode (E : List (Symbol × Code)) :
    ∀ t : Tables, (E.foldl (fun t e => (⟨mapSet t.huffmanCode e.1 e.2, mapSet t.reverseCode e.2 e.1⟩ : Tables)) t).huffmanCode
      = E.foldl (fun m e => mapSet m e.1 e.2) t.huffmanCode := by
  induction E with
  | nil => intro t; rfl
  | cons e es ih => intro t; rw [List.foldl_cons, ih]; rfl

theorem foldl_tables_reverseCode (E : List (Symbol × Code)) :
    ∀ t : Tables, (E.foldl (fun t e => (⟨mapSet t.huffmanCode e.1 e.2, mapSet t.reverseCode e.2 e.1⟩ : Tables)) t).reverseCode
      = (E.map (fun e => (e.2, e.1))).foldl (fun m e => mapSet m e.1 e.2) t.reverseCode := by
  induction E with
  | nil => intro t; rfl
  | cons e es ih => intro t; rw [List.foldl_cons, ih]; rfl

theorem paths_codes_nodup (n : Node) : (n.paths.map Prod.snd).Nodup := by
  have h := paths_pairwise n
  rw [List.Nodup, List.pairwise_map]
  refine h.imp ?_
  intro a b hab heq
  exact hab.1 (heq ▸ List.prefix_refl _)

/-- The forward table after `generateCodes(root, "")`: a symbol of the tree, when the symbols
of the leaves are distinct, has the path to its leaf; any other symbol keeps its old entry. -/
theorem generateCodes_huffmanCode (n : Node) (t : Tables) (s : Symbol) :
    (s ∉ n.leaves.map Prod.fst →
      mapFind (generateCodes (some n) [] t).huffmanCode s = mapFind t.huffmanCode s) ∧
    ((n.leaves.map Prod.fst).Nodup → ∀ c, (s, c) ∈ n.paths →
      mapFind (generateCodes (some n) [] t).huffmanCode s = some c) := by
  have hE : n.paths.map (fun e => (e.1, ([] : Code) ++ e.2)) = n.paths := by simp
  simp only [generateCodes, generateCodesNode_eq, foldl_tables_huffmanCode, hE]
  have h := mapFind_foldl_mapSet n.paths t.huffmanCode s
  rw [paths_keys] at h
  exact h

/-- The inverse table after `generateCodes(root, "")`: the path to a leaf has the symbol of the
leaf; any other string keeps its old entry. -/
theorem generateCodes_reverseCode (n : Node) (t : Tables) (c : Code) :
    (c ∉ n.paths.map Prod.snd →
      mapFind (generateCodes (some n) [] t).reverseCode c = mapFind t.reverseCode c) ∧
    (∀ s, (s, c) ∈ n.paths →
      mapFind (generateCodes (some n) [] t).reverseCode c = some s) := by
  have hE : n.paths.map (fun e => (e.1, ([] : Code) ++ e.2)) = n.paths := by simp
  simp only [generateCodes, generateCodesNode_eq, foldl_tables_reverseCode, hE]
  have h := mapFind_foldl_mapSet (n.paths.map (fun e => (e.2, e.1))) t.reverseCode c
  have hk : (n.paths.map (fun e => (e.2, e.1))).map Prod.fst = n.paths.map Prod.snd := by
    simp [Function.comp_def]
  rw [hk] at h
  refine ⟨h.1, ?_⟩
  intro s hs
  exact h.2 (paths_codes_nodup n) s (List.mem_map.2 ⟨(s, c), hs, rfl⟩)

/-- The leaves of the tree `buildHuffmanTree` returns are the entries of the frequency map. -/
theorem buildHuffmanTree_leaves (tb : TieBreak) (freqMap : List (Symbol × Int))
    (hne : freqMap ≠ []) :
    ∃ root, buildHuffmanTree tb freqMap = some root ∧ root.leaves.Perm freqMap := by
  obtain ⟨root, hroot, hinv⟩ := buildHuffmanTree_inv tb
    (fun q => (q.flatMap Node.leaves).Perm freqMap)
    (fun q q1 hp h => (List.Perm.flatMap_right _ hp.symm).trans h)
    (fun l r rest h _ _ => by
      simpa [List.flatMap_cons, Node.leaves, List.append_assoc] using h)
    freqMap hne
    (by
      have : ∀ m : List (Symbol × Int),
          (m.map (fun p => Node.leaf p.1 p.2)).flatMap Node.leaves = m := by
        intro m
        induction m with
        | nil => rfl
        | cons a as ih =>
          simp only [List.map_cons, List.flatMap_cons, ih, Node.leaves]
          rfl
      show ((freqMap.map (fun p => Node.leaf p.1 p.2)).flatMap Node.leaves).Perm freqMap
      rw [this])
  exact ⟨root, hroot, by simpa using hinv⟩

/-- With two or more entries in the frequency map the root is an inner node. -/
theorem buildHuffmanTree_inner (tb : TieBreak) (freqMap : List (Symbol × Int))
    (h2 : 2 ≤ freqMap.length) (root : Node) (hroot : buildHuffmanTree tb freqMap = some root) :
    ∃ v f l r, root = Node.inner v f l r := by
  have hne : freqMap ≠ [] := by intro h; subst h; simp at h2
  obtain ⟨root1, hroot1, hp⟩ := buildHuffmanTree_leaves tb freqMap hne
  rw [hroot] at hroot1
  cases hroot1
  cases root with
  | leaf v f =>
    have := hp.length_eq
    simp [Node.leaves] at this
    omega
  | inner v f l r => exact ⟨v, f, l, r, rfl⟩

/-- From empty tables the forward table holds exactly the paths of the tree. -/
theorem huffmanCode_empty_iff (n : Node) (hnd : (n.leaves.map Prod.fst).Nodup)
    (s : Symbol) (c : Code) :
    mapFind (generateCodes (some n) [] Tables.empty).huffmanCode s = some c ↔ (s, c) ∈ n.paths := by
  constructor
  · intro h
    by_cases hs : s ∈ n.leaves.map Prod.fst
    · rw [← paths_keys] at hs
      obtain ⟨e, he, hes⟩ := List.mem_map.1 hs
      have h1 := (generateCodes_huffmanCode n Tables.empty s).2 hnd e.2 (by rw [← hes]; exact he)
      rw [h] at h1
      cases h1
      rw [← hes]
      exact he
    · rw [(generateCodes_huffmanCode n Tables.empty s).1 hs] at h
      simp [Tables.empty, mapFind] at h
  · exact (generateCodes_huffmanCode n Tables.empty s).2 hnd c

/-- From empty tables the inverse table holds exactly the paths of the tree. -/
theorem reverseCode_empty_iff (n : Node) (s : Symbol) (c : Code) :
    mapFind (generateCodes (some n) [] Tables.empty).reverseCode c = some s ↔ (s, c) ∈ n.paths := by
  constructor
  · intro h
    by_cases hc : c ∈ n.paths.map Prod.snd
    · obtain ⟨e, he, hec⟩ := List.mem_map.1 hc
      have h1 := (generateCodes_reverseCode n Tables.empty c).2 e.1 (by rw [← hec]; exact he)
      rw [h] at h1
      cases h1
      rw [← hec]
      exact he
    · rw [(generateCodes_reverseCode n Tables.empty c).1 hc] at h
      simp [Tables.empty, mapFind] at h
  · exact (generateCodes_reverseCode n Tables.empty c).2 s

theorem leaves_keys_nodup (freqMap : List (Symbol × Int)) (root : Node)
    (hp : root.leaves.Perm freqMap) (hkeys : (freqMap.map Prod.fst).Nodup) :
    (root.leaves.map Prod.fst).Nodup :=
  (List.Perm.nodup_iff (hp.map Prod.fst)).2 hkeys

/-- C3. Prefix-free property: for every non-empty frequency table (a map: its keys are
distinct), `buildHuffmanTree` returns a tree, `generateCodes` from empty tables records a code
for every symbol of the table, and for every two distinct symbols `a` and `b` with recorded
codes neither `huffmanCode[a]` is a prefix of `huffmanCode[b]` nor the reverse; in particular
the two codes differ. This holds whatever the tie-breaking of the priority queue. -/
theorem C3_prefix_free (tb : TieBreak) (freqMap : List (Symbol × Int))
    (hne : freqMap ≠ []) (hkeys : (freqMap.map Prod.fst).Nodup) :
    ∃ root, buildHuffmanTree tb freqMap = some root ∧
      (∀ a ∈ freqMap.map Prod.fst,
        ∃ c, mapFind (generateCodes (some root) [] Tables.empty).huffmanCode a = some c) ∧
      ∀ a b ca cb, a ≠ b →
        mapFind (generateCodes (some root) [] Tables.empty).huffmanCode a = some ca →
        mapFind (generateCodes (some root) [] Tables.empty).huffmanCode b = some cb →
        ¬ ca <+: cb ∧ ¬ cb <+: ca ∧ ca ≠ cb := by
  obtain ⟨root, hroot, hp⟩ := buildHuffmanTree_leaves tb freqMap hne
  have hnd := leaves_keys_nodup freqMap root hp hkeys
  refine ⟨root, hroot, ?_, ?_⟩
  · intro a ha
    have ha1 : a ∈ root.paths.map Prod.fst := by
      rw [paths_keys]
      exact (hp.map Prod.fst).mem_iff.2 ha
    obtain ⟨e, he, hea⟩ := List.mem_map.1 ha1
    exact ⟨e.2, (huffmanCode_empty_iff root hnd a e.2).2 (by rw [← hea]; exact he)⟩
  · intro a b ca cb hab ha hb
    have ha1 := (huffmanCode_empty_iff root hnd a ca).1 ha
    have hb1 := (huffmanCode_empty_iff root hnd b cb).1 hb
    have hsym : Symmetric (fun (x y : Symbol × Code) => ¬ x.2 <+: y.2 ∧ ¬ y.2 <+: x.2) :=
      fun x y h => ⟨h.2, h.1⟩
    have h := (paths_pairwise root).forall hsym ha1 hb1 (by
      intro heq
      exact hab (congrArg Prod.fst heq))
    refine ⟨h.1, h.2, ?_⟩
    intro heq
    exact h.1 (heq ▸ List.prefix_refl _)

/-- Witness for C3 on the frequency table of `[0,0,0,0,1,1,2]`. -/
theorem C3_prefix_free_witness :
    ∃ root, buildHuffmanTree (fun _ => 0) [(0, 4), (1, 2), (2, 1)] = some root ∧
      (∀ a ∈ ([(0, 4), (1, 2), (2, 1)] : List (Symbol × Int)).map Prod.fst,
        ∃ c, mapFind (generateCodes (some root) [] Tables.empty).huffmanCode a = some c) ∧
      ∀ a b ca cb, a ≠ b →
        mapFind (generateCodes (some root) [] Tables.empty).huffmanCode a = some ca →
        mapFind (generateCodes (some root) [] Tables.empty).huffmanCode b = some cb →
        ¬ ca <+: cb ∧ ¬ cb <+: ca ∧ ca ≠ cb :=
  C3_prefix_free (fun _ => 0) [(0, 4), (1, 2), (2, 1)] (by decide) (by decide)

/-! ## Header and bit packing -/

theorem wrapInt_of_range (x : Int) (h0 : -2147483648 ≤ x) (h1 : x < 2147483648) :
    wrapInt x = x := by
  unfold wrapInt; omega

theorem toSizeT_of_nonneg (x : Int) (h0 : 0 ≤ x) (h1 : x < 2147483648) :
    toSizeT x = x.toNat := by
  unfold toSizeT
  congr 1
  omega

/-- The four header bytes read back give the integer that was written. -/
theorem bytesInt_intBytes (x : Int) :
    ∃ b0 b1 b2 b3, intBytes x = [b0, b1, b2, b3] ∧ bytesInt b0 b1 b2 b3 = wrapInt x := by
  refine ⟨_, _, _, _, rfl, ?_⟩
  unfold bytesInt
  have hv : ∀ n : Nat, ((Fin.ofNat n : Fin 256).val : Int) = ((n % 256 : Nat) : Int) := fun n => rfl
  rw [hv, hv, hv, hv]
  generalize hu : (x % 4294967296).toNat = u
  have hu1 : (u : Int) = x % 4294967296 := by
    rw [← hu]; exact Int.toNat_of_nonneg (by omega)
  unfold wrapInt
  omega

theorem byteBits_ofNat (b0 b1 b2 b3 b4 b5 b6 b7 : Bool) :
    byteBits (Fin.ofNat ((((((((0 ||| ((if b0 then 1 else 0) <<< 7)) |||
      ((if b1 then 1 else 0) <<< 6)) ||| ((if b2 then 1 else 0) <<< 5)) |||
      ((if b3 then 1 else 0) <<< 4)) ||| ((if b4 then 1 else 0) <<< 3)) |||
      ((if b5 then 1 else 0) <<< 2)) ||| ((if b6 then 1 else 0) <<< 1)) |||
      ((if b7 then 1 else 0) <<< 0))) = [b0, b1, b2, b3, b4, b5, b6, b7] := by
  cases b0 <;> cases b1 <;> cases b2 <;> cases b3 <;> cases b4 <;> cases b5 <;> cases b6 <;>
    cases b7 <;> rfl

/-- The bits of a packed byte are the eight bits of the string from position `i` on, with
`0` past the end of the string. -/
theorem byteBits_packByte (s : Code) (i : Nat) :
    byteBits (packByte s i) = [s.getD i false, s.getD (i + 1) false, s.getD (i + 2) false,
      s.getD (i + 3) false, s.getD (i + 4) false, s.getD (i + 5) false, s.getD (i + 6) false,
      s.getD (i + 7) false] := by
  have hr : List.range 8 = [0, 1, 2, 3, 4, 5, 6, 7] := by decide
  have hg : ∀ (byte j : Nat),
      (if i + j < s.length then byte ||| ((if s.getD (i + j) false = true then 1 else 0) <<< (7 - j)) else byte)
        = byte ||| ((if s.getD (i + j) false = true then 1 else 0) <<< (7 - j)) := by
    intro byte j
    by_cases h : i + j < s.length
    · rw [if_pos h]
    · rw [if_neg h]
      have : s.getD (i + j) false = false := by
        rw [List.getD_eq_getElem?_getD, List.getElem?_eq_none (by omega)]
        rfl
      rw [this]
      simp
  unfold packByte
  rw [hr]
  simp only [List.foldl, hg]
  exact byteBits_ofNat _ _ _ _ _ _ _ _

theorem flatMap_range_eight (f : Nat → Bool) (m : Nat) :
    (List.range m).flatMap (fun k => [f (8 * k), f (8 * k + 1), f (8 * k + 2), f (8 * k + 3),
      f (8 * k + 4), f (8 * k + 5), f (8 * k + 6), f (8 * k + 7)])
      = (List.range (8 * m)).map f := by
  induction m with
  | zero => rfl
  | succ m ih =>
    rw [List.range_succ, List.flatMap_append, ih]
    have : 8 * (m + 1) = 8 * m + 1 + 1 + 1 + 1 + 1 + 1 + 1 + 1 := by ring
    rw [this]
    simp only [List.range_succ, List.map_append, List.append_assoc, List.map_cons, List.map_nil,
      List.flatMap_cons, List.flatMap_nil, List.append_nil, List.cons_append, List.nil_append]

/-- All bits of the packed bytes: bit `k` is bit `k` of the string, or `0` past its end. -/
theorem allBits_packBits (s : Code) :
    allBits (packBits s) = (List.range (8 * ((s.length + 7) / 8))).map (fun k => s.getD k false) := by
  unfold allBits packBits
  rw [List.flatMap_map]
  simp only [Function.comp_def, byteBits_packByte]
  exact flatMap_range_eight (fun k => s.getD k false) _

theorem map_range_getD (s : Code) (n : Nat) (h : s.length ≤ n) :
    (List.range n).map (fun k => s.getD k false) = s ++ List.replicate (n - s.length) false := by
  apply List.ext_getElem
  · simp; omega
  · intro i h1 h2
    simp only [List.getElem_map, List.getElem_range]
    by_cases hi : i < s.length
    · rw [List.getElem_append_left hi, List.getD_eq_getElem?_getD, List.getElem?_eq_getElem hi]
      rfl
    · rw [List.getElem_append_right (by omega), List.getD_eq_getElem?_getD,
        List.getElem?_eq_none (by omega)]
      simp

/-- The packed bytes hold the string followed by zero bits up to the next multiple of 8. -/
theorem allBits_packBits_eq (s : Code) :
    allBits (packBits s) = s ++ List.replicate (8 * ((s.length + 7) / 8) - s.length) false := by
  rw [allBits_packBits]
  exact map_range_getD s _ (by omega)

theorem foldl_guard (N : Nat) (bs : Code) :
    ∀ s0 : Code, bs.foldl (fun s b => if s.length < N then s ++ [b] else s) s0
      = s0 ++ bs.take (N - s0.length) := by
  induction bs with
  | nil => intro s0; simp
  | cons b bs ih =>
    intro s0
    rw [List.foldl_cons]
    by_cases h : s0.length < N
    · rw [if_pos h, ih]
      have : N - s0.length = (N - (s0 ++ [b]).length) + 1 := by simp; omega
      rw [this, List.take_succ_cons]
      simp
    · rw [if_neg h, ih]
      have : N - s0.length = 0 := by omega
      simp [this]

/-- The read loop of `huffmanDecode` keeps the first `encodedBits` bits of the packed bytes
(all of them when there are fewer). -/
theorem readBits_eq (encodedBits : Int) (bytes : List Byte) :
    readBits encodedBits bytes = (allBits bytes).take (toSizeT encodedBits) := by
  have h : ∀ (bytes : List Byte) (s0 : Code),
      bytes.foldl (fun s byte =>
        [7, 6, 5, 4, 3, 2, 1, 0].foldl (fun s i =>
          if s.length < toSizeT encodedBits then s ++ [decide ((byte.val >>> i) &&& 1 ≠ 0)] else s) s) s0
        = s0 ++ (allBits bytes).take (toSizeT encodedBits - s0.length) := by
    intro bytes
    induction bytes with
    | nil => intro s0; simp [allBits]
    | cons byte rest ih =>
      intro s0
      rw [List.foldl_cons]
      have h1 : [7, 6, 5, 4, 3, 2, 1, 0].foldl (fun s i =>
          if s.length < toSizeT encodedBits then s ++ [decide ((byte.val >>> i) &&& 1 ≠ 0)] else s) s0
          = (byteBits byte).foldl (fun s b => if s.length < toSizeT encodedBits then s ++ [b] else s) s0 := by
        unfold byteBits
        rw [List.foldl_map]
      rw [h1, foldl_guard, ih]
      have h2 : allBits (byte :: rest) = byteBits byte ++ allBits rest := by
        simp [allBits]
      have h3 : (byteBits byte).length = 8 := rfl
      rw [h2, List.take_append_eq_append_take, h3, List.append_assoc]
      congr 2
      simp only [List.length_append, List.length_take, h3]
      congr 1
      omega
  have := h bytes []
  simpa [readBits] using this

/-- Unpacking the packed string with its own length as bit count gives the string back. -/
theorem readBits_packBits (s : Code) (B : Int) (hB : toSizeT B = s.length) :
    readBits B (packBits s) = s := by
  rw [readBits_eq, hB, allBits_packBits_eq]
  simp

/-! ## Frequency analysis -/

theorem wrapInt_add_wrapInt (x y : Int) : wrapInt (wrapInt x + y) = wrapInt (x + y) := by
  unfold wrapInt; omega

theorem calculateFrequency_foldl (data : List Symbol) :
    ∀ acc : List (Symbol × Int), (acc.map Prod.fst).Nodup →
      ((data.foldl (fun freqMap byte =>
          mapSet freqMap byte (wrapInt ((mapFind freqMap byte).getD 0 + 1))) acc).map Prod.fst).Nodup ∧
      ∀ k, mapFind (data.foldl (fun freqMap byte =>
          mapSet freqMap byte (wrapInt ((mapFind freqMap byte).getD 0 + 1))) acc) k
        = if data.count k = 0 then mapFind acc k
          else some (wrapInt ((mapFind acc k).getD 0 + (data.count k : Int))) := by
  induction data with
  | nil => intro acc h; exact ⟨h, by simp⟩
  | cons b rest ih =>
    intro acc hacc
    rw [List.foldl_cons]
    obtain ⟨h1, h2⟩ := ih _ (mapSet_keys_nodup acc b (wrapInt ((mapFind acc b).getD 0 + 1)) hacc)
    refine ⟨h1, ?_⟩
    intro k
    rw [h2 k]
    by_cases hk : k = b
    · subst hk
      rw [mapFind_mapSet_self]
      simp only [List.count_cons_self, Option.getD_some]
      by_cases hc : List.count k rest = 0
      · simp [hc]
      · rw [if_neg hc, if_neg (by omega), wrapInt_add_wrapInt]
        congr 2
        push_cast
        ring
    · rw [mapFind_mapSet_ne _ _ _ _ hk, List.count_cons_of_ne hk]

/-- The map `calculateFrequency` returns has one entry for every byte value that occurs in the
data, holding its number of occurrences (as a 32-bit `int`), and no other entry. -/
theorem calculateFrequency_spec (data : List Symbol) :
    ((calculateFrequency data).map Prod.fst).Nodup ∧
    ∀ k, mapFind (calculateFrequency data) k
      = if data.count k = 0 then none else some (wrapInt (data.count k : Int)) := by
  obtain ⟨h1, h2⟩ := calculateFrequency_foldl data [] (by simp)
  refine ⟨h1, ?_⟩
  intro k
  have := h2 k
  simpa [mapFind] using this

theorem mem_calculateFrequency_keys (data : List Symbol) (k : Symbol) :
    k ∈ (calculateFrequency data).map Prod.fst ↔ k ∈ data := by
  have h := (calculateFrequency_spec data).2 k
  have h1 := mapFind_eq_none (calculateFrequency data) k
  by_cases hk : k ∈ data
  · have hc : data.count k ≠ 0 := by
      have := List.count_pos_iff.2 hk
      omega
    rw [if_neg hc] at h
    simp only [hk, iff_true]
    by_contra hcon
    rw [h1.2 hcon] at h
    cases h
  · have hc : data.count k = 0 := List.count_eq_zero_of_not_mem hk
    rw [if_pos hc] at h
    simp only [hk, iff_false]
    exact h1.1 h

theorem calculateFrequency_ne_nil (data : List Symbol) (h : data ≠ []) :
    calculateFrequency data ≠ [] := by
  obtain ⟨a, ha⟩ := List.exists_mem_of_ne_nil data h
  have := (mem_calculateFrequency_keys data a).2 ha
  intro hnil
  rw [hnil] at this
  simp at this

theorem calculateFrequency_two (data : List Symbol) (a b : Symbol) (ha : a ∈ data)
    (hb : b ∈ data) (hab : a ≠ b) : 2 ≤ (calculateFrequency data).length := by
  have ha1 := (mem_calculateFrequency_keys data a).2 ha
  have hb1 := (mem_calculateFrequency_keys data b).2 hb
  match hm : (calculateFrequency data).map Prod.fst, ha1, hb1 with
  | [], ha1, _ => simp at ha1
  | [x], ha1, hb1 =>
    simp at ha1 hb1
    exact absurd (ha1.trans hb1.symm) hab
  | _ :: _ :: _, _, _ =>
    have := congrArg List.length hm
    simp at this
    omega

/-! ## The encoder -/

theorem encodeLoop_foldl (hc : List (Symbol × Code)) (data : List Symbol) :
    ∀ acc : Code, (∀ x ∈ data, ∃ c, mapFind hc x = some c) →
      data.foldl (fun st byte => ((mapIndex st.1 byte).2, st.2 ++ (mapIndex st.1 byte).1)) (hc, acc)
        = (hc, acc ++ data.flatMap (codeOf hc)) := by
  induction data with
  | nil => intro acc _; simp
  | cons b rest ih =>
    intro acc h
    obtain ⟨c, hcb⟩ := h b (List.mem_cons_self _ _)
    rw [List.foldl_cons]
    have h1 : mapIndex hc b = (c, hc) := by simp [mapIndex, hcb]
    simp only [h1]
    rw [ih _ (fun x hx => h x (List.mem_cons_of_mem _ hx))]
    simp [codeOf, hcb]

/-- When the table has a code for every byte of the data, the encoding loop leaves the table
as it is and builds the concatenation of the codes. -/
theorem encodeLoop_eq (hc : List (Symbol × Code)) (data : List Symbol)
    (h : ∀ x ∈ data, ∃ c, mapFind hc x = some c) :
    encodeLoop data hc = (hc, data.flatMap (codeOf hc)) := by
  unfold encodeLoop
  simpa using encodeLoop_foldl hc data [] h

/-- What `huffmanEncode` does on non-empty data, whatever the tables held before: it builds a
tree whose leaves are the entries of the frequency map, leaves behind the tables
`generateCodes` fills, and writes the header followed by the packed concatenation of the codes
of the data. -/
theorem huffmanEncode_eq (tb : TieBreak) (data : List Symbol) (t : Tables) (h : data ≠ []) :
    ∃ root, buildHuffmanTree tb (calculateFrequency data) = some root ∧
      root.leaves.Perm (calculateFrequency data) ∧
      (root.leaves.map Prod.fst).Nodup ∧
      (∀ x ∈ data, ∃ c, (x, c) ∈ root.paths ∧
        codeOf (generateCodes (some root) [] t).huffmanCode x = c) ∧
      huffmanEncode tb data t = some (generateCodes (some root) [] t,
        intBytes (wrapInt (data.flatMap (codeOf (generateCodes (some root) [] t).huffmanCode)).length)
          ++ packBits (data.flatMap (codeOf (generateCodes (some root) [] t).huffmanCode))) := by
  obtain ⟨root, hroot, hp⟩ := buildHuffmanTree_leaves tb _ (calculateFrequency_ne_nil data h)
  have hnd := leaves_keys_nodup _ root hp (calculateFrequency_spec data).1
  have hcodes : ∀ x ∈ data, ∃ c, (x, c) ∈ root.paths ∧
      mapFind (generateCodes (some root) [] t).huffmanCode x = some c := by
    intro x hx
    have hx1 : x ∈ root.paths.map Prod.fst := by
      rw [paths_keys]
      exact (hp.map Prod.fst).mem_iff.2 ((mem_calculateFrequency_keys data x).2 hx)
    obtain ⟨e, he, hex⟩ := List.mem_map.1 hx1
    have he1 : (x, e.2) ∈ root.paths := by rw [← hex]; exact he
    exact ⟨e.2, he1, (generateCodes_huffmanCode root t x).2 hnd e.2 he1⟩
  refine ⟨root, hroot, hp, hnd, ?_, ?_⟩
  · intro x hx
    obtain ⟨c, hc1, hc2⟩ := hcodes x hx
    exact ⟨c, hc1, by simp [codeOf, hc2]⟩
  · have hloop := encodeLoop_eq (generateCodes (some root) [] t).huffmanCode data
      (fun x hx => (hcodes x hx).imp (fun c hc => hc.2))
    simp only [huffmanEncode, hroot, hloop]

/-! ## The decoder -/

/-- Feeding the decoding loop the rest of a code word: no proper beginning of the word is in
the inverse table, so the loop emits the symbol of the word exactly at its last bit. -/
theorem decode_word (rc : List (Code × Symbol)) (P : List (Symbol × Code))
    (hpf : P.Pairwise (fun x y => ¬ x.2 <+: y.2 ∧ ¬ y.2 <+: x.2))
    (hrc : ∀ c s, mapFind rc c = some s ↔ (s, c) ∈ P)
    (s : Symbol) (c : Code) (hsc : (s, c) ∈ P) :
    ∀ (suf pre : Code), pre ++ suf = c → suf ≠ [] → ∀ (out : List Symbol) (rest : Code),
      (suf ++ rest).foldl (decodeStep rc) (out, pre) = rest.foldl (decodeStep rc) (out ++ [s], []) := by
  intro suf
  induction suf with
  | nil => intro pre _ h; exact absurd rfl h
  | cons b suf ih =>
    intro pre hc _ out rest
    rw [List.cons_append, List.foldl_cons]
    by_cases hsuf : suf = []
    · subst hsuf
      have h1 : mapFind rc (pre ++ [b]) = some s := by
        rw [hc]; exact (hrc c s).2 hsc
      simp [decodeStep, h1]
    · have h1 : mapFind rc (pre ++ [b]) = none := by
        cases hf : mapFind rc (pre ++ [b]) with
        | none => rfl
        | some s1 =>
          exfalso
          have hmem := (hrc _ _).1 hf
          have hsym : Symmetric (fun (x y : Symbol × Code) => ¬ x.2 <+: y.2 ∧ ¬ y.2 <+: x.2) :=
            fun x y h => ⟨h.2, h.1⟩
          have hpre : (pre ++ [b]) <+: c := ⟨suf, by rw [← hc]; simp⟩
          by_cases heq : (s1, pre ++ [b]) = (s, c)
          · have h2 : pre ++ [b] = c := congrArg Prod.snd heq
            rw [← hc] at h2
            have := congrArg List.length h2
            simp at this
            exact hsuf this
          · exact (hpf.forall hsym hmem hsc heq).1 hpre
      have h2 : decodeStep rc (out, pre) b = (out, pre ++ [b]) := by simp [decodeStep, h1]
      rw [h2]
      exact ih (pre ++ [b]) (by rw [← hc]; simp) hsuf out rest

/-- Decoding the concatenation of the code words of a sequence of symbols gives the sequence
back, when the inverse table holds exactly a prefix-free set of non-empty words. -/
theorem decode_words (rc : List (Code × Symbol)) (P : List (Symbol × Code))
    (hpf : P.Pairwise (fun x y => ¬ x.2 <+: y.2 ∧ ¬ y.2 <+: x.2))
    (hrc : ∀ c s, mapFind rc c = some s ↔ (s, c) ∈ P)
    (code : Symbol → Code) (data : List Symbol)
    (hdata : ∀ x ∈ data, (x, code x) ∈ P ∧ code x ≠ []) :
    ∀ out : List Symbol,
      (data.flatMap code).foldl (decodeStep rc) (out, []) = (out ++ data, []) := by
  induction data with
  | nil => intro out; simp
  | cons x rest ih =>
    intro out
    obtain ⟨hx1, hx2⟩ := hdata x (List.mem_cons_self _ _)
    rw [List.flatMap_cons,
      decode_word rc P hpf hrc x (code x) hx1 (code x) [] (by simp) hx2 out,
      ih (fun y hy => hdata y (List.mem_cons_of_mem _ hy))]
    simp

theorem encodedString_eq (tb : TieBreak) (data : List Symbol) (t : Tables) (root : Node)
    (hroot : buildHuffmanTree tb (calculateFrequency data) = some root)
    (h : ∀ x ∈ data, ∃ c, mapFind (generateCodes (some root) [] t).huffmanCode x = some c) :
    encodedString tb data t
      = data.flatMap (codeOf (generateCodes (some root) [] t).huffmanCode) := by
  simp only [encodedString, hroot, encodeLoop_eq _ data h]

theorem huffmanDecode_blob (x : Int) (packed : List Byte) (t : Tables) :
    huffmanDecode (some (intBytes x ++ packed)) t
      = (decodeLoop t.reverseCode (readBits (wrapInt x) packed)).1 := by
  obtain ⟨b0, b1, b2, b3, hb, hi⟩ := bytesInt_intBytes x
  rw [hb]
  simp only [List.cons_append, List.nil_append, huffmanDecode, hi]

/-! ## Round trip -/

/-- How the file `huffmanEncode` writes is read back: when the bit count fits in an `int`, the
read loop of the decoder recovers the concatenation of the codes. -/
theorem readBits_encoded (bits : Code) (hlen : bits.length < 2147483648) :
    readBits (wrapInt (wrapInt (bits.length : Int))) (packBits bits) = bits := by
  have h1 : wrapInt (bits.length : Int) = (bits.length : Int) :=
    wrapInt_of_range _ (by omega) (by omega)
  rw [h1, h1]
  apply readBits_packBits
  rw [toSizeT_of_nonneg _ (by omega) (by omega)]
  simp

/-- Decoding what the encoder wrote: for a tree with an inner root whose paths are the codes
of the data, the file written for the data decodes to the data. -/
theorem decode_encoded (S : List Symbol) (root : Node) (v : Symbol) (f : Int) (l r : Node)
    (hinner : root = Node.inner v f l r)
    (hcodes : ∀ x ∈ S, ∃ c, (x, c) ∈ root.paths ∧
      codeOf (generateCodes (some root) [] Tables.empty).huffmanCode x = c)
    (hbits : (S.flatMap (codeOf (generateCodes (some root) [] Tables.empty).huffmanCode)).length
      < 2147483648) :
    huffmanDecode (some (intBytes (wrapInt
        (S.flatMap (codeOf (generateCodes (some root) [] Tables.empty).huffmanCode)).length)
        ++ packBits (S.flatMap (codeOf (generateCodes (some root) [] Tables.empty).huffmanCode))))
      (generateCodes (some root) [] Tables.empty) = S := by
  rw [huffmanDecode_blob, readBits_encoded _ hbits]
  unfold decodeLoop
  rw [decode_words _ root.paths (paths_pairwise root)
    (fun c s => reverseCode_empty_iff root s c) _ S (by
      intro x hx
      obtain ⟨c, hc1, hc2⟩ := hcodes x hx
      rw [hc2]
      refine ⟨hc1, ?_⟩
      rw [hinner] at hc1
      exact paths_ne_nil v f l r _ hc1)]
  simp

/-- C2. Round trip: for every byte sequence `S` with at least two distinct byte values whose
encoded bit count fits in a signed 32-bit `int`, and for every tie-breaking of the priority
queue, `huffmanEncode` from empty tables writes a file from which `huffmanDecode`, using the
tables the encoder left behind, returns exactly `S`. -/
theorem C2_round_trip (tb : TieBreak) (S : List Symbol) (a b : Symbol)
    (ha : a ∈ S) (hb : b ∈ S) (hab : a ≠ b)
    (hbits : (encodedString tb S Tables.empty).length < 2147483648) :
    ∃ t blob, huffmanEncode tb S Tables.empty = some (t, blob) ∧
      huffmanDecode (some blob) t = S := by
  have hne : S ≠ [] := List.ne_nil_of_mem ha
  obtain ⟨root, hroot, _, hnd, hcodes, henc⟩ := huffmanEncode_eq tb S Tables.empty hne
  obtain ⟨v, f, l, r, hinner⟩ :=
    buildHuffmanTree_inner tb _ (calculateFrequency_two S a b ha hb hab) root hroot
  refine ⟨_, _, henc, ?_⟩
  have hes := encodedString_eq tb S Tables.empty root hroot (by
    intro x hx
    obtain ⟨c, hc1, _⟩ := hcodes x hx
    exact ⟨c, (huffmanCode_empty_iff root hnd x c).2 hc1⟩)
  rw [hes] at hbits
  exact decode_encoded S root v f l r hinner hcodes hbits

/-- Witness for C2 on `[0,0,0,0,1,1,2]`. -/
theorem C2_round_trip_witness :
    ∃ t blob, huffmanEncode (fun _ => 0) [0, 0, 0, 0, 1, 1, 2] Tables.empty = some (t, blob) ∧
      huffmanDecode (some blob) t = [0, 0, 0, 0, 1, 1, 2] :=
  C2_round_trip (fun _ => 0) [0, 0, 0, 0, 1, 1, 2] 0 1 (by decide) (by decide) (by decide)
    (by decide)

theorem buildHuffmanTree_single (tb : TieBreak) (e : Symbol × Int) :
    buildHuffmanTree tb [e] = some (Node.leaf e.1 e.2) := by
  simp [buildHuffmanTree, initialQueue, pqPush, mergeLoop, pqTop_singleton]

/-! ## Bit-count accounting -/

theorem length_flatMap_int (data : List Symbol) (code : Symbol → Code) :
    ((data.flatMap code).length : Int) = (data.map (fun x => ((code x).length : Int))).sum := by
  induction data with
  | nil => rfl
  | cons x rest ih =>
    simp only [List.flatMap_cons, List.length_append, List.map_cons, List.sum_cons]
    push_cast
    rw [ih]

theorem length_le_sum (data : List Symbol) (g : Symbol → Int) (h : ∀ x ∈ data, 1 ≤ g x) :
    (data.length : Int) ≤ (data.map g).sum := by
  induction data with
  | nil => simp
  | cons x rest ih =>
    simp only [List.length_cons, List.map_cons, List.sum_cons]
    have h1 := h x (List.mem_cons_self _ _)
    have h2 := ih (fun y hy => h y (List.mem_cons_of_mem _ hy))
    push_cast
    omega

/-- Summing over the positions of the data is summing, over the entries of the frequency map,
the stored count times the summand, as long as the counts did not wrap. -/
theorem sum_by_frequency (data : List Symbol) (g : Symbol → Int)
    (hw : ∀ k ∈ data, wrapInt (data.count k : Int) * g k = (data.count k : Int) * g k) :
    (data.map g).sum = ((calculateFrequency data).map (fun e => e.2 * g e.1)).sum := by
  obtain ⟨hnd, hfind⟩ := calculateFrequency_spec data
  have h1 : (calculateFrequency data).map (fun e => e.2 * g e.1)
      = ((calculateFrequency data).map Prod.fst).map (fun k => (data.count k : Int) * g k) := by
    rw [List.map_map]
    apply List.map_congr_left
    intro e he
    have hk : e.1 ∈ data :=
      (mem_calculateFrequency_keys data e.1).1 (List.mem_map.2 ⟨e, he, rfl⟩)
    have h2 := mapFind_of_mem _ e.1 e.2 hnd he
    rw [hfind e.1] at h2
    have hc : data.count e.1 ≠ 0 := by
      have := List.count_pos_iff.2 hk
      omega
    rw [if_neg hc] at h2
    have h3 : e.2 = wrapInt (data.count e.1 : Int) := (Option.some.inj h2).symm
    show e.2 * g e.1 = (data.count e.1 : Int) * g e.1
    rw [h3]
    exact hw e.1 hk
  rw [h1, ← List.sum_toFinset _ hnd, Finset.sum_list_map_count]
  have h3 : ((calculateFrequency data).map Prod.fst).toFinset = data.toFinset := by
    ext k
    simp only [List.mem_toFinset]
    exact mem_calculateFrequency_keys data k
  rw [h3]
  apply Finset.sum_congr rfl
  intro k _
  simp

/-- C5. Bit-count accounting: for every non-empty input `S` encoded from empty tables whose
encoding has fewer than `2^31` bits, and every tie-breaking, the file `huffmanEncode` writes
starts with the four bytes of an integer (read back by `bytesInt` as the decoder does) that
equals the sum over all positions `i` of the length of `huffmanCode[S[i]]`, and that sum equals
the sum over the entries of the frequency map of frequency times code length. -/
theorem C5_bit_count (tb : TieBreak) (S : List Symbol) (hne : S ≠ [])
    (hbits : (encodedString tb S Tables.empty).length < 2147483648) :
    ∃ t b0 b1 b2 b3 packed,
      huffmanEncode tb S Tables.empty = some (t, b0 :: b1 :: b2 :: b3 :: packed) ∧
      [b0, b1, b2, b3] = intBytes (S.map (fun x => ((codeOf t.huffmanCode x).length : Int))).sum ∧
      bytesInt b0 b1 b2 b3 = (S.map (fun x => ((codeOf t.huffmanCode x).length : Int))).sum ∧
      (S.map (fun x => ((codeOf t.huffmanCode x).length : Int))).sum
        = ((calculateFrequency S).map
            (fun e => e.2 * ((codeOf t.huffmanCode e.1).length : Int))).sum := by
  obtain ⟨root, hroot, _, hnd, hcodes, henc⟩ := huffmanEncode_eq tb S Tables.empty hne
  have hes := encodedString_eq tb S Tables.empty root hroot (by
    intro x hx
    obtain ⟨c, hc1, _⟩ := hcodes x hx
    exact ⟨c, (huffmanCode_empty_iff root hnd x c).2 hc1⟩)
  rw [hes] at hbits
  have hlen := length_flatMap_int S (codeOf (generateCodes (some root) [] Tables.empty).huffmanCode)
  have hw : wrapInt ((S.flatMap (codeOf (generateCodes (some root) [] Tables.empty).huffmanCode)).length : Int)
      = (S.map (fun x =>
          ((codeOf (generateCodes (some root) [] Tables.empty).huffmanCode x).length : Int))).sum := by
    rw [wrapInt_of_range _ (by omega) (by omega), hlen]
  obtain ⟨b0, b1, b2, b3, hb, hi⟩ := bytesInt_intBytes
    (S.map (fun x =>
      ((codeOf (generateCodes (some root) [] Tables.empty).huffmanCode x).length : Int))).sum
  refine ⟨generateCodes (some root) [] Tables.empty, b0, b1, b2, b3,
    packBits (S.flatMap (codeOf (generateCodes (some root) [] Tables.empty).huffmanCode)),
    ?_, hb.symm, ?_, ?_⟩
  · rw [henc, hw, hb]
    rfl
  · rw [hi, ← hw]; unfold wrapInt; omega
  · apply sum_by_frequency
    intro k hk
    have hshape : (∃ v f, root = Node.leaf v f) ∨ (∃ v f l r, root = Node.inner v f l r) := by
      cases root with
      | leaf v f => exact Or.inl ⟨v, f, rfl⟩
      | inner v f l r => exact Or.inr ⟨v, f, l, r, rfl⟩
    rcases hshape with ⟨v, f, hr⟩ | ⟨v, f, l, r, hr⟩
    · obtain ⟨c, hc1, hc2⟩ := hcodes k hk
      rw [hr] at hc1
      simp only [Node.paths, List.mem_singleton, Prod.mk.injEq] at hc1
      rw [hc2, hc1.2]
      simp
    · have hge : ∀ x ∈ S,
          (1 : Int) ≤ ((codeOf (generateCodes (some root) [] Tables.empty).huffmanCode x).length : Int) := by
        intro x hx
        obtain ⟨c, hc1, hc2⟩ := hcodes x hx
        rw [hr] at hc1
        have := paths_ne_nil v f l r _ hc1
        rw [hc2]
        have : 0 < c.length := List.length_pos.2 this
        omega
      have h1 := length_le_sum S _ hge
      have h2 : (S.count k : Int) ≤ (S.length : Int) := by
        exact_mod_cast List.count_le_length k S
      rw [wrapInt_of_range _ (by omega) (by omega)]

/-- Witness for C5 on `[0,0,0,0,1,1,2]`. -/
theorem C5_bit_count_witness :
    ∃ t b0 b1 b2 b3 packed,
      huffmanEncode (fun _ => 0) [0, 0, 0, 0, 1, 1, 2] Tables.empty
        = some (t, b0 :: b1 :: b2 :: b3 :: packed) ∧
      [b0, b1, b2, b3] = intBytes (([0, 0, 0, 0, 1, 1, 2] : List Symbol).map
        (fun x => ((codeOf t.huffmanCode x).length : Int))).sum ∧
      bytesInt b0 b1 b2 b3 = (([0, 0, 0, 0, 1, 1, 2] : List Symbol).map
        (fun x => ((codeOf t.huffmanCode x).length : Int))).sum ∧
      (([0, 0, 0, 0, 1, 1, 2] : List Symbol).map
          (fun x => ((codeOf t.huffmanCode x).length : Int))).sum
        = ((calculateFrequency [0, 0, 0, 0, 1, 1, 2]).map
            (fun e => e.2 * ((codeOf t.huffmanCode e.1).length : Int))).sum :=
  C5_bit_count (fun _ => 0) [0, 0, 0, 0, 1, 1, 2] (by decide) (by decide)

/-! ## Layout of the file -/

/-- The header bytes of a bit count `B`: byte `i` is `B / 256^i mod 256`. -/
theorem intBytes_wrapInt_nat (B : Nat) :
    intBytes (wrapInt (B : Int))
      = [Fin.ofNat B, Fin.ofNat (B / 256), Fin.ofNat (B / 65536), Fin.ofNat (B / 16777216)] := by
  unfold intBytes
  have hu : (wrapInt (B : Int) % 4294967296).toNat = B % 4294967296 := by
    have : wrapInt (B : Int) % 4294967296 = ((B % 4294967296 : Nat) : Int) := by
      unfold wrapInt; omega
    rw [this]
    exact Int.toNat_ofNat _
  simp only [hu]
  have hf : ∀ a b : Nat, a % 256 = b % 256 → (Fin.ofNat a : Fin 256) = Fin.ofNat b := by
    intro a b h
    apply Fin.ext
    exact h
  rw [hf (B % 4294967296) B (by omega), hf (B % 4294967296 / 256) (B / 256) (by omega),
    hf (B % 4294967296 / 65536) (B / 65536) (by omega),
    hf (B % 4294967296 / 16777216) (B / 16777216) (by omega)]

theorem byteBits_getD (b : Byte) (k : Nat) (hk : k < 8) :
    (byteBits b).getD k false = b.val.testBit (7 - k) := by
  have h : ∀ i : Nat, decide ((b.val >>> i) &&& 1 ≠ 0) = b.val.testBit i := by
    intro i
    have hx : ∀ x : Nat, decide (x ≠ 0) = (x != 0) := by
      intro x
      by_cases hx : x = 0 <;> simp [hx]
    rw [Nat.testBit, Nat.and_comm, hx]
  unfold byteBits
  simp only [List.map, h]
  interval_cases k <;> rfl

/-- Bit `k` of the bit stream of a byte sequence is bit `7 - k mod 8` of byte `k / 8`. -/
theorem allBits_getD (bytes : List Byte) :
    ∀ k, k < 8 * bytes.length →
      (allBits bytes).getD k false = (bytes.getD (k / 8) 0).val.testBit (7 - k % 8) := by
  induction bytes with
  | nil => intro k hk; simp at hk
  | cons b rest ih =>
    intro k hk
    have h2 : allBits (b :: rest) = byteBits b ++ allBits rest := by simp [allBits]
    have h3 : (byteBits b).length = 8 := rfl
    rw [h2]
    by_cases h8 : k < 8
    · have hd : k / 8 = 0 := by omega
      have hm : k % 8 = k := by omega
      rw [hd, hm, List.getD_append _ _ _ _ (by omega)]
      simpa using byteBits_getD b k h8
    · have hd : k / 8 = (k - 8) / 8 + 1 := by omega
      have hm : k % 8 = (k - 8) % 8 := by omega
      rw [hd, hm, List.getD_append_right _ _ _ _ (by omega), h3]
      simp only [List.length_cons] at hk
      rw [ih (k - 8) (by omega)]
      simp

theorem packBits_length (s : Code) : (packBits s).length = (s.length + 7) / 8 := by
  simp [packBits]

/-- C6. Blob layout: for every non-empty input, every tie-breaking and whatever the tables held
before, the file `huffmanEncode` writes consists of four header bytes, byte `i` being
`B / 256^i mod 256` for the bit count `B` (the little-endian encoding of `B`), followed by
exactly `ceil(B/8)` bytes; bit `k` of the concatenated code string (the concatenation of the
codes of the input in the forward table) is bit `7 - k mod 8` of packed byte `k / 8`, and every
bit of the packed bytes from the `B`-th on is `0`. -/
theorem C6_blob_layout (tb : TieBreak) (S : List Symbol) (t0 : Tables) (hne : S ≠ []) :
    ∃ t packed,
      huffmanEncode tb S t0 = some (t,
        [Fin.ofNat (encodedString tb S t0).length, Fin.ofNat ((encodedString tb S t0).length / 256),
         Fin.ofNat ((encodedString tb S t0).length / 65536),
         Fin.ofNat ((encodedString tb S t0).length / 16777216)] ++ packed) ∧
      encodedString tb S t0 = S.flatMap (codeOf t.huffmanCode) ∧
      packed.length = ((encodedString tb S t0).length + 7) / 8 ∧
      (∀ k, k < (encodedString tb S t0).length →
        (packed.getD (k / 8) 0).val.testBit (7 - k % 8) = (encodedString tb S t0).getD k false) ∧
      (∀ k, (encodedString tb S t0).length ≤ k → k < 8 * packed.length →
        (packed.getD (k / 8) 0).val.testBit (7 - k % 8) = false) := by
  obtain ⟨root, hroot, _, hnd, hcodes, henc⟩ := huffmanEncode_eq tb S t0 hne
  have hes := encodedString_eq tb S t0 root hroot (by
    intro x hx
    obtain ⟨c, hc1, _⟩ := hcodes x hx
    exact ⟨c, (generateCodes_huffmanCode root t0 x).2 hnd c hc1⟩)
  rw [hes]
  refine ⟨generateCodes (some root) [] t0,
    packBits (S.flatMap (codeOf (generateCodes (some root) [] t0).huffmanCode)), ?_, rfl,
    packBits_length _, ?_, ?_⟩
  · rw [henc, intBytes_wrapInt_nat]
  · intro k hk
    rw [← allBits_getD _ k (by rw [packBits_length]; omega), allBits_packBits_eq,
      List.getD_append _ _ _ _ hk]
  · intro k hk1 hk2
    rw [← allBits_getD _ k hk2, allBits_packBits_eq, List.getD_append_right _ _ _ _ hk1]
    rw [packBits_length] at hk2
    rw [List.getD_eq_getElem?_getD, List.getElem?_replicate]
    split <;> rfl

/-- Witness for C6 on `[0,0,0,0,1,1,2]`. -/
theorem C6_blob_layout_witness :
    ∃ t packed,
      huffmanEncode (fun _ => 0) [0, 0, 0, 0, 1, 1, 2] Tables.empty = some (t,
        [Fin.ofNat (encodedString (fun _ => 0) [0, 0, 0, 0, 1, 1, 2] Tables.empty).length,
         Fin.ofNat ((encodedString (fun _ => 0) [0, 0, 0, 0, 1, 1, 2] Tables.empty).length / 256),
         Fin.ofNat ((encodedString (fun _ => 0) [0, 0, 0, 0, 1, 1, 2] Tables.empty).length / 65536),
         Fin.ofNat ((encodedString (fun _ => 0) [0, 0, 0, 0, 1, 1, 2] Tables.empty).length / 16777216)]
          ++ packed) ∧
      encodedString (fun _ => 0) [0, 0, 0, 0, 1, 1, 2] Tables.empty
        = ([0, 0, 0, 0, 1, 1, 2] : List Symbol).flatMap (codeOf t.huffmanCode) ∧
      packed.length = ((encodedString (fun _ => 0) [0, 0, 0, 0, 1, 1, 2] Tables.empty).length + 7) / 8 ∧
      (∀ k, k < (encodedString (fun _ => 0) [0, 0, 0, 0, 1, 1, 2] Tables.empty).length →
        (packed.getD (k / 8) 0).val.testBit (7 - k % 8)
          = (encodedString (fun _ => 0) [0, 0, 0, 0, 1, 1, 2] Tables.empty).getD k false) ∧
      (∀ k, (encodedString (fun _ => 0) [0, 0, 0, 0, 1, 1, 2] Tables.empty).length ≤ k →
        k < 8 * packed.length → (packed.getD (k / 8) 0).val.testBit (7 - k % 8) = false) :=
  C6_blob_layout (fun _ => 0) [0, 0, 0, 0, 1, 1, 2] Tables.empty (by decide)

/-! ## Padding, truncated streams and dangling bits -/

theorem byteBits_length (b : Byte) : (byteBits b).length = 8 := rfl

theorem allBits_length (bytes : List Byte) : (allBits bytes).length = 8 * bytes.length := by
  induction bytes with
  | nil => rfl
  | cons b rest ih =>
    have h2 : allBits (b :: rest) = byteBits b ++ allBits rest := by simp [allBits]
    rw [h2, List.length_append, ih, byteBits_length, List.length_cons]
    ring

theorem huffmanDecode_cons (b0 b1 b2 b3 : Byte) (packed : List Byte) (t : Tables) :
    huffmanDecode (some (b0 :: b1 :: b2 :: b3 :: packed)) t
      = (decodeLoop t.reverseCode ((allBits packed).take (toSizeT (bytesInt b0 b1 b2 b3)))).1 := by
  rw [← readBits_eq]
  rfl

/-- C7. Padding is never interpreted: for every pair of tables and every two files whose
headers declare the same bit count `B >= 0`, whose packed parts have at least `ceil(B/8)` bytes
each and agree on their first `B` bits (bit `k` being bit `7 - k mod 8` of packed byte `k / 8`),
`huffmanDecode` returns the same sequence; the bits after the `B`-th and any further bytes
have no effect. -/
theorem C7_padding_ignored (t : Tables) (b0 b1 b2 b3 c0 c1 c2 c3 : Byte)
    (packed1 packed2 : List Byte)
    (hB : 0 ≤ bytesInt b0 b1 b2 b3)
    (hsame : bytesInt c0 c1 c2 c3 = bytesInt b0 b1 b2 b3)
    (hlen1 : bytesInt b0 b1 b2 b3 ≤ 8 * (packed1.length : Int))
    (hlen2 : bytesInt b0 b1 b2 b3 ≤ 8 * (packed2.length : Int))
    (hbits : ∀ k : Nat, (k : Int) < bytesInt b0 b1 b2 b3 →
      (packed1.getD (k / 8) 0).val.testBit (7 - k % 8)
        = (packed2.getD (k / 8) 0).val.testBit (7 - k % 8)) :
    huffmanDecode (some (b0 :: b1 :: b2 :: b3 :: packed1)) t
      = huffmanDecode (some (c0 :: c1 :: c2 :: c3 :: packed2)) t := by
  rw [huffmanDecode_cons, huffmanDecode_cons, hsame]
  have hr : bytesInt b0 b1 b2 b3 < 2147483648 := by
    unfold bytesInt wrapInt; omega
  rw [toSizeT_of_nonneg _ hB hr]
  generalize hn : (bytesInt b0 b1 b2 b3).toNat = n
  have hn1 : (n : Int) = bytesInt b0 b1 b2 b3 := by
    rw [← hn]; exact Int.toNat_of_nonneg hB
  have h1 : n ≤ 8 * packed1.length := by omega
  have h2 : n ≤ 8 * packed2.length := by omega
  have heq : (allBits packed1).take n = (allBits packed2).take n := by
    apply List.ext_getElem
    · simp [allBits_length]
      omega
    · intro i hi1 hi2
      have hi : i < n := by
        simp [allBits_length] at hi1
        omega
      rw [List.getElem_take, List.getElem_take]
      have e1 := allBits_getD packed1 i (by omega)
      have e2 := allBits_getD packed2 i (by omega)
      rw [List.getD_eq_getElem?_getD, List.getElem?_eq_getElem (by rw [allBits_length]; omega)] at e1 e2
      simp only [Option.getD_some] at e1 e2
      rw [e1, e2]
      exact hbits i (by omega)
  rw [heq]

/-- Witness for C7: two files declaring 10 bits that differ in the pad bits of the last byte
and in a trailing byte. -/
theorem C7_padding_ignored_witness :
    huffmanDecode (some [10, 0, 0, 0, 245, 0]) ⟨[], [([true], 0), ([false, true], 1), ([false, false], 2)]⟩
      = huffmanDecode (some [10, 0, 0, 0, 245, 63, 255])
          ⟨[], [([true], 0), ([false, true], 1), ([false, false], 2)]⟩ :=
  C7_padding_ignored ⟨[], [([true], 0), ([false, true], 1), ([false, false], 2)]⟩
    10 0 0 0 10 0 0 0 [245, 0] [245, 63, 255] (by decide) (by decide) (by decide) (by decide)
    (by
      intro k hk
      have h10 : bytesInt 10 0 0 0 = 10 := by decide
      rw [h10] at hk
      have hk1 : k < 10 := by omega
      interval_cases k <;> decide)

/-- C8 (counterexample). The file for `[0,0,0,0,1,1,2]` is `[10,0,0,0,245,0]`; with the declared
count raised from 10 to 100 `huffmanDecode` does not fail: it returns a sequence of ten
symbols, the pad bits decoded as three more copies of symbol 2. -/
theorem C8_truncated_counterexample :
    huffmanEncode (fun _ => 0) [0, 0, 0, 0, 1, 1, 2] Tables.empty
        = some (⟨[(0, [true]), (1, [false, true]), (2, [false, false])],
            [([true], 0), ([false, true], 1), ([false, false], 2)]⟩, [10, 0, 0, 0, 245, 0]) ∧
      (8 * ([245, 0] : List Byte).length : Int) < bytesInt 100 0 0 0 ∧
      huffmanDecode (some [100, 0, 0, 0, 245, 0])
          ⟨[(0, [true]), (1, [false, true]), (2, [false, false])],
            [([true], 0), ([false, true], 1), ([false, false], 2)]⟩
        = [0, 0, 0, 0, 1, 1, 2, 2, 2, 2] := by
  decide

/-- C8 (amended). For every file whose declared bit count is larger than 8 times the number of
packed bytes that follow, and every pair of tables, `huffmanDecode` returns what the decoding
loop produces from all the bits of the packed bytes that are present (the same as for a
declared count of exactly 8 times the number of packed bytes); no error is raised. -/
theorem C8_truncated_amended (t : Tables) (b0 b1 b2 b3 : Byte) (packed : List Byte)
    (h : 8 * (packed.length : Int) < bytesInt b0 b1 b2 b3) :
    huffmanDecode (some (b0 :: b1 :: b2 :: b3 :: packed)) t
      = (decodeLoop t.reverseCode (allBits packed)).1 := by
  rw [huffmanDecode_cons]
  have hr : bytesInt b0 b1 b2 b3 < 2147483648 := by
    unfold bytesInt wrapInt; omega
  rw [toSizeT_of_nonneg _ (by omega) hr]
  have hn : (allBits packed).length ≤ (bytesInt b0 b1 b2 b3).toNat := by
    rw [allBits_length]; omega
  rw [List.take_of_length_le hn]

/-- Witness for the amended C8 on the corrupted file of the counterexample. -/
theorem C8_truncated_amended_witness :
    huffmanDecode (some [100, 0, 0, 0, 245, 0])
        ⟨[], [([true], 0), ([false, true], 1), ([false, false], 2)]⟩
      = (decodeLoop [([true], 0), ([false, true], 1), ([false, false], 2)] (allBits [245, 0])).1 :=
  C8_truncated_amended ⟨[], [([true], 0), ([false, true], 1), ([false, false], 2)]⟩
    100 0 0 0 [245, 0] (by decide)

theorem foldl_decodeStep_snoc (rc : List (Code × Symbol)) (bits : Code) (b : Bool) :
    decodeLoop rc (bits ++ [b]) = decodeStep rc (decodeLoop rc bits) b := by
  simp [decodeLoop, List.foldl_append]

/-- The state of the decoding loop: the accumulator is the end of the bits read, what precedes
it decodes to the symbols emitted with an empty accumulator, and a non-empty accumulator is
not in the inverse table. -/
theorem decodeLoop_state (rc : List (Code × Symbol)) (bits : Code) :
    ∃ pre, bits = pre ++ (decodeLoop rc bits).2 ∧
      decodeLoop rc pre = ((decodeLoop rc bits).1, []) ∧
      ((decodeLoop rc bits).2 ≠ [] → mapFind rc (decodeLoop rc bits).2 = none) := by
  induction bits using List.reverseRecOn with
  | nil => exact ⟨[], rfl, rfl, fun h => absurd rfl h⟩
  | append_singleton bits b ih =>
    obtain ⟨pre, h1, h2, _⟩ := ih
    rw [foldl_decodeStep_snoc]
    cases hf : mapFind rc ((decodeLoop rc bits).2 ++ [b]) with
    | some v =>
      have hs : decodeStep rc (decodeLoop rc bits) b = ((decodeLoop rc bits).1 ++ [v], []) := by
        simp [decodeStep, hf]
      rw [hs]
      refine ⟨bits ++ [b], by simp, ?_, fun h => absurd rfl h⟩
      rw [foldl_decodeStep_snoc, hs]
    | none =>
      have hs : decodeStep rc (decodeLoop rc bits) b
          = ((decodeLoop rc bits).1, (decodeLoop rc bits).2 ++ [b]) := by
        simp [decodeStep, hf]
      rw [hs]
      refine ⟨pre, ?_, h2, fun _ => hf⟩
      show bits ++ [b] = pre ++ ((decodeLoop rc bits).2 ++ [b])
      rw [← List.append_assoc, ← h1]

/-- C9 (counterexample). With the inverse table of `[0,0,0,0,1,1,2]` and a file declaring the
two bits `10`, the loop decodes symbol 0 and is left with the accumulator `0`, which is
non-empty and matches no entry; `huffmanDecode` returns `[0]`, the symbols decoded so far. -/
theorem C9_invalid_code_counterexample :
    decodeLoop [([true], 0), ([false, true], 1), ([false, false], 2)]
        (readBits (bytesInt 2 0 0 0) [128]) = ([0], [false]) ∧
      mapFind [([true], (0 : Symbol)), ([false, true], 1), ([false, false], 2)] [false] = none ∧
      huffmanDecode (some [2, 0, 0, 0, 128])
        ⟨[(0, [true]), (1, [false, true]), (2, [false, false])],
          [([true], 0), ([false, true], 1), ([false, false], 2)]⟩ = [0] := by
  decide

/-- C9 (amended). For every file and every pair of tables such that, after the declared
number of bits has been consumed, the accumulator is non-empty, that accumulator matches no
inverse-table entry and `huffmanDecode` returns the symbols decoded so far: the bits read are
some `pre` followed by the accumulator, and the result is exactly what the loop emits on
`pre`, on which it ends with an empty accumulator. The dangling bits are dropped without an
error. -/
theorem C9_invalid_code_amended (t : Tables) (b0 b1 b2 b3 : Byte) (packed : List Byte)
    (hacc : (decodeLoop t.reverseCode (readBits (bytesInt b0 b1 b2 b3) packed)).2 ≠ []) :
    mapFind t.reverseCode (decodeLoop t.reverseCode (readBits (bytesInt b0 b1 b2 b3) packed)).2 = none ∧
    ∃ pre, readBits (bytesInt b0 b1 b2 b3) packed
        = pre ++ (decodeLoop t.reverseCode (readBits (bytesInt b0 b1 b2 b3) packed)).2 ∧
      decodeLoop t.reverseCode pre
        = (huffmanDecode (some (b0 :: b1 :: b2 :: b3 :: packed)) t, []) := by
  obtain ⟨pre, h1, h2, h3⟩ := decodeLoop_state t.reverseCode (readBits (bytesInt b0 b1 b2 b3) packed)
  exact ⟨h3 hacc, pre, h1, h2⟩

/-- Witness for the amended C9 on the file of the counterexample. -/
theorem C9_invalid_code_amended_witness :
    mapFind [([true], (0 : Symbol)), ([false, true], 1), ([false, false], 2)]
        (decodeLoop [([true], 0), ([false, true], 1), ([false, false], 2)]
          (readBits (bytesInt 2 0 0 0) [128])).2 = none ∧
    ∃ pre, readBits (bytesInt 2 0 0 0) [128]
        = pre ++ (decodeLoop [([true], 0), ([false, true], 1), ([false, false], 2)]
            (readBits (bytesInt 2 0 0 0) [128])).2 ∧
      decodeLoop [([true], 0), ([false, true], 1), ([false, false], 2)] pre
        = (huffmanDecode (some [2, 0, 0, 0, 128])
            ⟨[], [([true], 0), ([false, true], 1), ([false, false], 2)]⟩, []) :=
  C9_invalid_code_amended ⟨[], [([true], 0), ([false, true], 1), ([false, false], 2)]⟩
    2 0 0 0 [128] (by decide)

/-! ## Empty and single-symbol input -/

theorem verifyMismatch_self (a : List Symbol) : ∀ i, verifyMismatch a a i = none := by
  induction a with
  | nil => intro i; rfl
  | cons x xs ih => intro i; simp [verifyMismatch, ih]

theorem verifyData_self (a : List Symbol) : verifyData a a = true := by
  simp [verifyData, verifyMismatch_self]

/-- On non-empty data `huffmanEncode` never calls `top()` on an empty queue. -/
theorem huffmanEncode_isSome (tb : TieBreak) (S : List Symbol) (t : Tables) (hne : S ≠ []) :
    ∃ r, huffmanEncode tb S t = some r := by
  obtain ⟨root, _, _, _, _, henc⟩ := huffmanEncode_eq tb S t hne
  exact ⟨_, henc⟩

/-- C1 (counterexample). The round trip fails on the empty sequence, where `huffmanEncode`
reaches `top()` on an empty queue and writes nothing, and on `[5,5,5,5,5]`, where the lone
symbol gets the empty code, the file holds a header of zero bits and no payload, and the
decoder returns the empty sequence. -/
theorem C1_round_trip_counterexample :
    huffmanEncode (fun _ => 0) [] Tables.empty = none ∧
      huffmanEncode (fun _ => 0) [5, 5, 5, 5, 5] Tables.empty
        = some (⟨[(5, [])], [([], 5)]⟩, [0, 0, 0, 0]) ∧
      huffmanDecode (some [0, 0, 0, 0]) ⟨[(5, [])], [([], 5)]⟩ = [] ∧
      huffmanDecode (some [0, 0, 0, 0]) ⟨[(5, [])], [([], 5)]⟩ ≠ [5, 5, 5, 5, 5] := by
  decide

/-- C1 (amended). Round-trip law on the inputs the codec is built for: `main` rejects the empty
sequence with status -1 before `huffmanEncode` is called, and for every byte sequence `S` with
at least two distinct byte values whose encoded bit count is below `2^31`, whatever the
tie-breaking, `huffmanEncode` from empty tables followed by `huffmanDecode` on the file
written returns exactly `S`, so that the verification in `main` passes and `main` ends with
status 0. -/
theorem C1_round_trip_amended (tb : TieBreak) (S : List Symbol) (a b : Symbol)
    (ha : a ∈ S) (hb : b ∈ S) (hab : a ≠ b)
    (hbits : (encodedString tb S Tables.empty).length < 2147483648) :
    main tb [] = some (-1) ∧
    (∃ t blob, huffmanEncode tb S Tables.empty = some (t, blob) ∧
      huffmanDecode (some blob) t = S) ∧
    main tb S = some 0 := by
  have hne : S ≠ [] := List.ne_nil_of_mem ha
  obtain ⟨root, hroot, _, hnd, hcodes, henc⟩ := huffmanEncode_eq tb S Tables.empty hne
  obtain ⟨v, f, l, r, hinner⟩ :=
    buildHuffmanTree_inner tb _ (calculateFrequency_two S a b ha hb hab) root hroot
  have hes := encodedString_eq tb S Tables.empty root hroot (by
    intro x hx
    obtain ⟨c, hc1, _⟩ := hcodes x hx
    exact ⟨c, (huffmanCode_empty_iff root hnd x c).2 hc1⟩)
  rw [hes] at hbits
  have hdec := decode_encoded S root v f l r hinner hcodes hbits
  refine ⟨rfl, ⟨_, _, henc, hdec⟩, ?_⟩
  have hS : S.isEmpty = false := by
    cases S with
    | nil => exact absurd rfl hne
    | cons x xs => rfl
  simp only [main, hS, henc, hdec, verifyData_self]
  rfl

/-- Witness for the amended C1 on `[0,0,0,0,1,1,2]`. -/
theorem C1_round_trip_amended_witness :
    main (fun _ => 0) [] = some (-1) ∧
    (∃ t blob, huffmanEncode (fun _ => 0) [0, 0, 0, 0, 1, 1, 2] Tables.empty = some (t, blob) ∧
      huffmanDecode (some blob) t = [0, 0, 0, 0, 1, 1, 2]) ∧
    main (fun _ => 0) [0, 0, 0, 0, 1, 1, 2] = some 0 :=
  C1_round_trip_amended (fun _ => 0) [0, 0, 0, 0, 1, 1, 2] 0 1 (by decide) (by decide)
    (by decide) (by decide)

/-- C10 (counterexample). On the empty sequence the frequency map and the queue are empty,
`buildHuffmanTree` reaches `top()` on the empty queue, and `huffmanEncode` has no result: no
failure value is returned. -/
theorem C10_empty_input_counterexample :
    calculateFrequency [] = [] ∧ initialQueue (calculateFrequency []) = [] ∧
      mergeLoop (fun _ => 0) 0 [] = some [] ∧ pqTop (fun _ => 0) [] = none ∧
      buildHuffmanTree (fun _ => 0) (calculateFrequency []) = none ∧
      huffmanEncode (fun _ => 0) [] Tables.empty = none := by
  decide

/-- C10 (amended). Empty input is caught by `main`, not by the encoder: on the empty sequence
`main` ends with the failure status -1 at its guard, before `huffmanEncode` is called; and on
every non-empty sequence, whatever the tie-breaking and the tables, `huffmanEncode` never
reaches `top()` on an empty queue. -/
theorem C10_empty_input_amended (tb : TieBreak) (S : List Symbol) (t : Tables) (hne : S ≠ []) :
    main tb [] = some (-1) ∧ ∃ r, huffmanEncode tb S t = some r :=
  ⟨rfl, huffmanEncode_isSome tb S t hne⟩

/-- Witness for the amended C10 on `[5]`. -/
theorem C10_empty_input_amended_witness :
    main (fun _ => 0) [] = some (-1) ∧
      ∃ r, huffmanEncode (fun _ => 0) [5] Tables.empty = some r :=
  C10_empty_input_amended (fun _ => 0) [5] Tables.empty (by decide)

/-! ## Optimality: depth assignments -/

theorem cost_cons (e : Int × Nat) (L : List (Int × Nat)) :
    cost (e :: L) = e.1 * (e.2 : Int) + cost L := by
  simp [cost]

theorem kraft_cons (e : Int × Nat) (L : List (Int × Nat)) :
    kraft (e :: L) = (1 / 2 : ℚ) ^ e.2 + kraft L := by
  simp [kraft]

theorem cost_perm {L1 L2 : List (Int × Nat)} (h : L1.Perm L2) : cost L1 = cost L2 :=
  (h.map _).sum_eq

theorem kraft_nonneg (L : List (Int × Nat)) : 0 ≤ kraft L := by
  induction L with
  | nil => simp [kraft]
  | cons e L ih =>
    rw [kraft_cons]
    positivity

/-- The Kraft sum depends on the depths only. -/
theorem kraft_of_depths {L1 L2 : List (Int × Nat)} (h : (L1.map Prod.snd).Perm (L2.map Prod.snd)) :
    kraft L1 = kraft L2 := by
  have e : ∀ L : List (Int × Nat),
      kraft L = ((L.map Prod.snd).map (fun d => (1 / 2 : ℚ) ^ d)).sum := by
    intro L; simp [kraft, Function.comp_def]
  rw [e, e]
  exact (h.map _).sum_eq

theorem exists_max_depth (L : List (Int × Nat)) (hL : L ≠ []) :
    ∃ D, (∃ e ∈ L, e.2 = D) ∧ ∀ e ∈ L, e.2 ≤ D := by
  induction L with
  | nil => exact absurd rfl hL
  | cons a as ih =>
    by_cases has : as = []
    · subst has
      exact ⟨a.2, ⟨a, by simp, rfl⟩, by simp⟩
    · obtain ⟨D, ⟨e, he, heD⟩, hmax⟩ := ih has
      by_cases hle : D ≤ a.2
      · refine ⟨a.2, ⟨a, by simp, rfl⟩, ?_⟩
        intro x hx
        rcases List.mem_cons.1 hx with rfl | hx
        · exact le_refl _
        · exact le_trans (hmax x hx) hle
      · refine ⟨D, ⟨e, List.mem_cons_of_mem _ he, heD⟩, ?_⟩
        intro x hx
        rcases List.mem_cons.1 hx with rfl | hx
        · omega
        · exact hmax x hx

theorem perm_cons_of_mem {α : Type} {e : α} {L : List α} (h : e ∈ L) :
    ∃ R, L.Perm (e :: R) := by
  obtain ⟨s, t, rfl⟩ := List.append_of_mem h
  exact ⟨s ++ t, List.perm_middle⟩

/-- Exchange step: an entry of least frequency can be given the greatest depth without
raising the cost; the entry is then split off. -/
theorem raise_min (L : List (Int × Nat)) (a : Int) (D : Nat)
    (ha : a ∈ L.map Prod.fst) (hmin : ∀ e ∈ L, a ≤ e.1)
    (hD : ∃ e ∈ L, e.2 = D) (hmax : ∀ e ∈ L, e.2 ≤ D) :
    ∃ L1, (L.map Prod.fst).Perm (a :: L1.map Prod.fst) ∧
      (L.map Prod.snd).Perm (D :: L1.map Prod.snd) ∧
      cost L1 + a * (D : Int) ≤ cost L := by
  obtain ⟨e, he, hea⟩ := List.mem_map.1 ha
  obtain ⟨R, hp⟩ := perm_cons_of_mem he
  by_cases hd : e.2 = D
  · refine ⟨R, ?_, ?_, ?_⟩
    · rw [← hea]; exact hp.map Prod.fst
    · rw [← hd]; exact hp.map Prod.snd
    · rw [cost_perm hp, cost_cons, hea, hd]
      omega
  · obtain ⟨x, hx, hxD⟩ := hD
    have hxe : x ≠ e := by
      intro h; rw [h] at hxD; exact hd hxD
    have hx1 : x ∈ R := by
      rcases List.mem_cons.1 (hp.mem_iff.1 hx) with h | h
      · exact absurd h hxe
      · exact h
    obtain ⟨R1, hp1⟩ := perm_cons_of_mem hx1
    have hp2 : L.Perm (e :: x :: R1) := hp.trans (hp1.cons e)
    refine ⟨(x.1, e.2) :: R1, ?_, ?_, ?_⟩
    · rw [← hea]; exact hp2.map Prod.fst
    · have := hp2.map Prod.snd
      simp only [List.map_cons] at this ⊢
      rw [← hxD]
      exact this.trans (List.Perm.swap _ _ _)
    · rw [cost_perm hp2, cost_cons, cost_cons, cost_cons, hea, hxD]
      simp only
      have h1 : a ≤ x.1 := hmin x hx
      have h2 : (e.2 : Int) ≤ (D : Int) := by exact_mod_cast hmax e he
      nlinarith [mul_nonneg (sub_nonneg.2 h1) (sub_nonneg.2 h2)]

/-- With all depths at most `m` the Kraft sum is a whole multiple of `2^(-m)`. -/
theorem kraft_scaled (m : Nat) (L : List (Int × Nat)) (h : ∀ e ∈ L, e.2 ≤ m) :
    ∃ n : Nat, kraft L * (2 : ℚ) ^ m = (n : ℚ) := by
  induction L with
  | nil => exact ⟨0, by simp [kraft]⟩
  | cons e L ih =>
    obtain ⟨n, hn⟩ := ih (fun x hx => h x (List.mem_cons_of_mem _ hx))
    have he : e.2 ≤ m := h e (List.mem_cons_self _ _)
    refine ⟨2 ^ (m - e.2) + n, ?_⟩
    rw [kraft_cons, add_mul, hn]
    have : (1 / 2 : ℚ) ^ e.2 * (2 : ℚ) ^ m = (2 : ℚ) ^ (m - e.2) := by
      have hm : m = e.2 + (m - e.2) := by omega
      conv_lhs => rw [hm, pow_add, ← mul_assoc, ← mul_pow]
      norm_num
    rw [this]
    push_cast
    ring

/-- Parity step: when the Kraft sum of `L1` is `1 - 2^(-D)` and no depth exceeds `D`, some
entry of `L1` has depth `D`. -/
theorem exists_depth_of_kraft (L1 : List (Int × Nat)) (D : Nat) (hne : L1 ≠ [])
    (hmax : ∀ e ∈ L1, e.2 ≤ D) (hk : kraft L1 = 1 - (1 / 2 : ℚ) ^ D) :
    ∃ e ∈ L1, e.2 = D := by
  by_contra hcon
  push_neg at hcon
  cases D with
  | zero =>
    obtain ⟨e, he⟩ := List.exists_mem_of_ne_nil L1 hne
    have := hmax e he
    exact hcon e he (by omega)
  | succ m =>
    have hm : ∀ e ∈ L1, e.2 ≤ m := by
      intro e he
      have h1 := hmax e he
      have h2 := hcon e he
      omega
    obtain ⟨n, hn⟩ := kraft_scaled m L1 hm
    rw [hk] at hn
    have h2 : (2 : ℚ) ^ (m + 1) = 2 * (2 : ℚ) ^ m := by ring
    have h3 : (1 / 2 : ℚ) ^ (m + 1) * (2 : ℚ) ^ m = 1 / 2 := by
      rw [pow_succ, mul_assoc, mul_comm (1 / 2 : ℚ), ← mul_assoc, ← mul_pow]
      norm_num
    have h4 : (2 : ℚ) ^ (m + 1) = 2 * (n : ℚ) + 1 := by
      rw [h2]
      linarith [h3, hn]
    have h5 : (2 : Nat) ^ (m + 1) = 2 * n + 1 := by exact_mod_cast h4
    have h6 : (2 : Nat) ^ (m + 1) = 2 * 2 ^ m := by ring
    omega

/-- Greedy step on depth assignments: from a depth assignment with Kraft sum 1 for the
frequencies `a :: b :: rest`, where `a` is least and `b` is least among the others, there is a
depth assignment with Kraft sum 1 for `(a + b) :: rest` that costs at least `a + b` less. -/
theorem merge_two_least (L : List (Int × Nat)) (a b : Int) (rest : List Int)
    (hk : kraft L = 1) (hp : (L.map Prod.fst).Perm (a :: b :: rest))
    (hamin : ∀ w ∈ b :: rest, a ≤ w) (hbmin : ∀ w ∈ rest, b ≤ w) :
    ∃ L1, kraft L1 = 1 ∧ (L1.map Prod.fst).Perm ((a + b) :: rest) ∧
      cost L1 + a + b ≤ cost L := by
  have hne : L ≠ [] := by
    intro h; rw [h] at hp; simpa using hp.length_eq
  obtain ⟨D, hD, hmax⟩ := exists_max_depth L hne
  have hmemL : ∀ e ∈ L, e.1 ∈ a :: b :: rest := fun e he =>
    hp.mem_iff.1 (List.mem_map.2 ⟨e, he, rfl⟩)
  obtain ⟨L1, hf1, hs1, hc1⟩ := raise_min L a D
    (hp.mem_iff.2 (List.mem_cons_self _ _))
    (by
      intro e he
      rcases List.mem_cons.1 (hmemL e he) with h | h
      · rw [h]
      · exact hamin _ h)
    hD hmax
  have hf1a : (L1.map Prod.fst).Perm (b :: rest) := (hf1.symm.trans hp).cons_inv
  have hmax1 : ∀ e ∈ L1, e.2 ≤ D := by
    intro e he
    have : e.2 ∈ L.map Prod.snd :=
      hs1.mem_iff.2 (List.mem_cons_of_mem _ (List.mem_map.2 ⟨e, he, rfl⟩))
    obtain ⟨x, hx, hxe⟩ := List.mem_map.1 this
    rw [← hxe]
    exact hmax x hx
  have hkL : kraft L = (1 / 2 : ℚ) ^ D + kraft L1 := by
    have : kraft L = kraft (((0 : Int), D) :: L1) := kraft_of_depths (by simpa using hs1)
    rw [this, kraft_cons]
  have hne1 : L1 ≠ [] := by
    intro h; rw [h] at hf1a; simpa using hf1a.length_eq
  have hD1 : ∃ e ∈ L1, e.2 = D :=
    exists_depth_of_kraft L1 D hne1 hmax1 (by rw [hk] at hkL; linarith)
  obtain ⟨L2, hf2, hs2, hc2⟩ := raise_min L1 b D
    (hf1a.mem_iff.2 (List.mem_cons_self _ _))
    (by
      intro e he
      rcases List.mem_cons.1 (hf1a.mem_iff.1 (List.mem_map.2 ⟨e, he, rfl⟩)) with h | h
      · rw [h]
      · exact hbmin _ h)
    hD1 hmax1
  have hf2a : (L2.map Prod.fst).Perm rest := (hf2.symm.trans hf1a).cons_inv
  have hkL1 : kraft L1 = (1 / 2 : ℚ) ^ D + kraft L2 := by
    have : kraft L1 = kraft (((0 : Int), D) :: L2) := kraft_of_depths (by simpa using hs2)
    rw [this, kraft_cons]
  have hDpos : 1 ≤ D := by
    by_contra h0
    have h0 : D = 0 := by omega
    rw [h0] at hkL hkL1
    have := kraft_nonneg L2
    rw [hk, hkL1] at hkL
    norm_num at hkL
    linarith
  refine ⟨(a + b, D - 1) :: L2, ?_, ?_, ?_⟩
  · rw [kraft_cons]
    have hpow : (1 / 2 : ℚ) ^ (D - 1) = 2 * (1 / 2 : ℚ) ^ D := by
      have hd : D = (D - 1) + 1 := by omega
      conv_rhs => rw [hd, pow_succ]
      ring
    simp only
    rw [hpow]
    rw [hk, hkL1] at hkL
    linarith
  · simpa using hf2a
  · rw [cost_cons]
    simp only
    have hd : ((D - 1 : Nat) : Int) = (D : Int) - 1 := by omega
    rw [hd]
    nlinarith [hc1, hc2]

theorem kraft_leafDepths (n : Node) : ∀ d, kraft (n.leafDepths d) = (1 / 2 : ℚ) ^ d := by
  induction n with
  | leaf v f => intro d; simp [Node.leafDepths, kraft]
  | inner v f l r ihl ihr =>
    intro d
    have : kraft (l.leafDepths (d + 1) ++ r.leafDepths (d + 1))
        = kraft (l.leafDepths (d + 1)) + kraft (r.leafDepths (d + 1)) := by
      simp [kraft]
    rw [Node.leafDepths, this, ihl, ihr, pow_succ]
    ring

theorem leafDepths_fst (n : Node) : ∀ d, (n.leafDepths d).map Prod.fst = n.leaves.map Prod.snd := by
  induction n with
  | leaf v f => intro d; rfl
  | inner v f l r ihl ihr =>
    intro d
    simp [Node.leafDepths, Node.leaves, ihl, ihr]

theorem cost_append (L1 L2 : List (Int × Nat)) : cost (L1 ++ L2) = cost L1 + cost L2 := by
  simp [cost]

theorem cost_leafDepths_succ (n : Node) :
    ∀ d, cost (n.leafDepths (d + 1)) = cost (n.leafDepths d) + n.weight := by
  induction n with
  | leaf v f =>
    intro d
    simp [Node.leafDepths, cost, Node.weight]
    ring
  | inner v f l r ihl ihr =>
    intro d
    simp only [Node.leafDepths, cost_append, Node.weight]
    rw [ihl (d + 1), ihr (d + 1)]
    ring

theorem wpl_inner (v : Symbol) (f : Int) (l r : Node) :
    (Node.inner v f l r).wpl = l.wpl + r.wpl + l.weight + r.weight := by
  simp only [Node.wpl, Node.leafDepths, cost_append]
  rw [cost_leafDepths_succ l 0, cost_leafDepths_succ r 0]
  ring

theorem natAbs_weight_le (n : Node) : n.weight.natAbs ≤ n.absWeight := by
  induction n with
  | leaf v f => simp [Node.weight, Node.absWeight]
  | inner v f l r ihl ihr =>
    simp only [Node.weight, Node.absWeight]
    have := Int.natAbs_add_le l.weight r.weight
    omega

/-! ## Optimality of the tree -/

theorem wpl_leaf (v : Symbol) (f : Int) : (Node.leaf v f).wpl = 0 := by
  simp [Node.wpl, Node.leafDepths, cost]

theorem half_pow_eq_one (d : Nat) (h : (1 / 2 : ℚ) ^ d = 1) : d = 0 := by
  cases d with
  | zero => rfl
  | succ m =>
    exfalso
    have h1 : (1 / 2 : ℚ) ^ m ≤ 1 := pow_le_one₀ (by norm_num) (by norm_num)
    rw [pow_succ] at h
    linarith

/-- The weighted path length of the tree `buildHuffmanTree` returns is at most `K` when some
depth assignment with Kraft sum 1 for the frequencies of the map costs `K`, provided the
frequencies are small enough for the sums in the nodes not to overflow. -/
theorem buildHuffmanTree_wpl_le (tb : TieBreak) (freqMap : List (Symbol × Int))
    (hne : freqMap ≠ [])
    (hbound : (freqMap.map (fun e => e.2.natAbs)).sum < 2147483648)
    (L0 : List (Int × Nat)) (hk0 : kraft L0 = 1)
    (hp0 : (L0.map Prod.fst).Perm (freqMap.map Prod.snd)) :
    ∃ root, buildHuffmanTree tb freqMap = some root ∧ root.wpl ≤ cost L0 := by
  obtain ⟨root, hroot, hinv⟩ := buildHuffmanTree_inv tb
    (fun q => (∀ t ∈ q, t.freq = t.weight) ∧ (q.map Node.absWeight).sum < 2147483648 ∧
      ∃ L, kraft L = 1 ∧ (L.map Prod.fst).Perm (q.map Node.freq) ∧
        (q.map Node.wpl).sum + cost L ≤ cost L0)
    (by
      rintro q q1 hp ⟨h1, h2, L, hk, hL, hc⟩
      refine ⟨fun t ht => h1 t (hp.mem_iff.2 ht), ?_, L, hk, hL.trans (hp.map _), ?_⟩
      · rw [← (hp.map Node.absWeight).sum_eq]; exact h2
      · rw [← (hp.map Node.wpl).sum_eq]; exact hc)
    (by
      rintro l r rest ⟨h1, h2, L, hk, hL, hc⟩ hlmin hrmin
      have hl := h1 l (by simp)
      have hr := h1 r (by simp)
      have hal := natAbs_weight_le l
      have har := natAbs_weight_le r
      simp only [List.map_cons, List.sum_cons] at h2 hL hc
      have hsum : (l.weight + r.weight).natAbs ≤ l.absWeight + r.absWeight := by
        have := Int.natAbs_add_le l.weight r.weight
        omega
      have hw : wrapInt (l.freq + r.freq) = l.weight + r.weight := by
        rw [hl, hr]
        apply wrapInt_of_range <;> omega
      obtain ⟨L1, hk1, hL1, hc1⟩ := merge_two_least L l.freq r.freq (rest.map Node.freq) hk hL
        (by
          intro w hw
          rcases List.mem_cons.1 hw with h | h
          · rw [h]; exact hlmin r (by simp)
          · obtain ⟨m, hm, hmw⟩ := List.mem_map.1 h
            rw [← hmw]; exact hlmin m (List.mem_cons_of_mem _ hm))
        (by
          intro w hw
          obtain ⟨m, hm, hmw⟩ := List.mem_map.1 hw
          rw [← hmw]; exact hrmin m hm)
      refine ⟨?_, ?_, L1, hk1, ?_, ?_⟩
      · intro t ht
        rcases List.mem_cons.1 ht with h | h
        · rw [h]; exact hw
        · exact h1 t (by simp [h])
      · simp only [List.map_cons, List.sum_cons, Node.absWeight]
        omega
      · rw [List.map_cons]
        show (L1.map Prod.fst).Perm (wrapInt (l.freq + r.freq) :: rest.map Node.freq)
        rw [hw, ← hl, ← hr]
        exact hL1
      · simp only [List.map_cons, List.sum_cons, wpl_inner]
        rw [← hl, ← hr]
        linarith)
    freqMap hne
    (by
      refine ⟨?_, ?_, L0, hk0, ?_, ?_⟩
      · intro t ht
        obtain ⟨e, _, rfl⟩ := List.mem_map.1 ht
        rfl
      · rw [List.map_map]
        exact hbound
      · rw [List.map_map]
        exact hp0
      · rw [List.map_map]
        have : (freqMap.map (Node.wpl ∘ fun p => Node.leaf p.1 p.2)).sum = 0 := by
          apply List.sum_eq_zero
          intro x hx
          obtain ⟨e, _, rfl⟩ := List.mem_map.1 hx
          exact wpl_leaf _ _
        rw [this]
        simp)
  refine ⟨root, hroot, ?_⟩
  obtain ⟨_, _, L, hk, hL, hc⟩ := hinv
  simp only [List.map_cons, List.map_nil, List.sum_cons, List.sum_nil, add_zero] at hL hc
  have hlen := hL.length_eq
  match L, hk, hc, hlen with
  | [e], hk, hc, _ =>
    have hd : e.2 = 0 := half_pow_eq_one e.2 (by simpa [kraft] using hk)
    have : cost [e] = 0 := by simp [cost, hd]
    rw [this] at hc
    linarith
  | [], _, _, hlen => simp at hlen
  | _ :: _ :: _, _, _, hlen => simp at hlen

/-- The weighted path length of a tree is the sum over its leaves of frequency times the
length of the path to the leaf. -/
theorem cost_leafDepths_paths (n : Node) :
    ∀ (d : Nat) (g : Symbol → Nat), (∀ e ∈ n.paths, g e.1 = e.2.length) →
      cost (n.leafDepths d) = (n.leaves.map (fun e => e.2 * ((d + g e.1 : Nat) : Int))).sum := by
  induction n with
  | leaf v f =>
    intro d g hg
    have := hg (v, []) (by simp [Node.paths])
    simp only [List.length_nil] at this
    simp [Node.leafDepths, Node.leaves, cost, this]
  | inner v f l r ihl ihr =>
    intro d g hg
    have hmem : ∀ (m : Node) (e : Symbol × Int), e ∈ m.leaves → ∃ p, (e.1, p) ∈ m.paths := by
      intro m e he
      have : e.1 ∈ m.paths.map Prod.fst := by
        rw [paths_keys]; exact List.mem_map.2 ⟨e, he, rfl⟩
      obtain ⟨x, hx, hxe⟩ := List.mem_map.1 this
      exact ⟨x.2, by rw [← hxe]; exact hx⟩
    have hgl : ∀ e ∈ l.paths, g e.1 - 1 = e.2.length := by
      intro e he
      have := hg (e.1, false :: e.2) (by
        simp only [Node.paths, List.mem_append, List.mem_map]
        exact Or.inl ⟨e, he, rfl⟩)
      simp only [List.length_cons] at this
      omega
    have hgr : ∀ e ∈ r.paths, g e.1 - 1 = e.2.length := by
      intro e he
      have := hg (e.1, true :: e.2) (by
        simp only [Node.paths, List.mem_append, List.mem_map]
        exact Or.inr ⟨e, he, rfl⟩)
      simp only [List.length_cons] at this
      omega
    simp only [Node.leafDepths, Node.leaves, cost_append, List.map_append, List.sum_append]
    rw [ihl (d + 1) (fun s => g s - 1) hgl, ihr (d + 1) (fun s => g s - 1) hgr]
    congr 1
    · congr 1
      apply List.map_congr_left
      intro e he
      obtain ⟨p, hp⟩ := hmem l e he
      have h1 := hgl (e.1, p) hp
      have h2 := hg (e.1, false :: p) (by
        simp only [Node.paths, List.mem_append, List.mem_map]
        exact Or.inl ⟨(e.1, p), hp, rfl⟩)
      simp only [List.length_cons] at h1 h2
      congr 2
      omega
    · congr 1
      apply List.map_congr_left
      intro e he
      obtain ⟨p, hp⟩ := hmem r e he
      have h1 := hgr (e.1, p) hp
      have h2 := hg (e.1, true :: p) (by
        simp only [Node.paths, List.mem_append, List.mem_map]
        exact Or.inr ⟨(e.1, p), hp, rfl⟩)
      simp only [List.length_cons] at h1 h2
      congr 2
      omega

/-- C4. Optimality: for every frequency table with distinct keys and at least two entries
whose frequencies are small enough for the `int` sums in the nodes not to overflow (the
absolute values sum to less than `2^31`), and for every tie-breaking of the priority queue,
`buildHuffmanTree` returns a tree whose leaves are the entries of the table, whose total
weighted path length is the sum over the entries of frequency times the length of the code
`generateCodes` records, and is at most the total weighted path length of every tree `T`
whose leaves are exactly the entries of the table. -/
theorem C4_optimal (tb : TieBreak) (freqMap : List (Symbol × Int))
    (hkeys : (freqMap.map Prod.fst).Nodup) (h2 : 2 ≤ freqMap.length)
    (hbound : (freqMap.map (fun e => e.2.natAbs)).sum < 2147483648)
    (T : Node) (hT : T.leaves.Perm freqMap) :
    ∃ root, buildHuffmanTree tb freqMap = some root ∧ root.leaves.Perm freqMap ∧
      root.wpl = (freqMap.map (fun e => e.2 *
        ((codeOf (generateCodes (some root) [] Tables.empty).huffmanCode e.1).length : Int))).sum ∧
      root.wpl ≤ T.wpl := by
  have hne : freqMap ≠ [] := by
    intro h; rw [h] at h2; simp at h2
  obtain ⟨root, hroot, hp⟩ := buildHuffmanTree_leaves tb freqMap hne
  obtain ⟨root1, hroot1, hle⟩ := buildHuffmanTree_wpl_le tb freqMap hne hbound
    (T.leafDepths 0) (by simpa using kraft_leafDepths T 0)
    (by rw [leafDepths_fst]; exact hT.map Prod.snd)
  rw [hroot] at hroot1
  cases hroot1
  refine ⟨root, hroot, hp, ?_, hle⟩
  have hnd := leaves_keys_nodup freqMap root hp hkeys
  have hg : ∀ e ∈ root.paths,
      (codeOf (generateCodes (some root) [] Tables.empty).huffmanCode e.1).length = e.2.length := by
    intro e he
    have := (huffmanCode_empty_iff root hnd e.1 e.2).2 he
    simp [codeOf, this]
  have h := cost_leafDepths_paths root 0
    (fun s => (codeOf (generateCodes (some root) [] Tables.empty).huffmanCode s).length) hg
  simp only [Nat.zero_add] at h
  rw [Node.wpl, h]
  exact (hp.map _).sum_eq

/-- Witness for C4 on the frequency table of `[0,0,0,0,1,1,2]`, against the tree that puts
symbols 0 and 1 at depth 2 and symbol 2 at depth 1. -/
theorem C4_optimal_witness :
    ∃ root, buildHuffmanTree (fun _ => 0) [(0, 4), (1, 2), (2, 1)] = some root ∧
      root.leaves.Perm [(0, 4), (1, 2), (2, 1)] ∧
      root.wpl = (([(0, 4), (1, 2), (2, 1)] : List (Symbol × Int)).map (fun e => e.2 *
        ((codeOf (generateCodes (some root) [] Tables.empty).huffmanCode e.1).length : Int))).sum ∧
      root.wpl ≤ (Node.inner 0 7 (Node.inner 0 6 (Node.leaf 0 4) (Node.leaf 1 2))
        (Node.leaf 2 1)).wpl :=
  C4_optimal (fun _ => 0) [(0, 4), (1, 2), (2, 1)] (by decide) (by decide) (by decide)
    (Node.inner 0 7 (Node.inner 0 6 (Node.leaf 0 4) (Node.leaf 1 2)) (Node.leaf 2 1))
    (List.Perm.refl _)


/-! ## The single-entry table -/

/-- C11 (the code at the failing input). On the frequency table with the single entry
`5 -> 5`, whatever the tie-breaking, `buildHuffmanTree` returns the lone leaf and
`generateCodes` records the empty string for symbol 5 in both tables, not a one-bit code; as a
consequence `main` on `[5,5,5,5,5]` fails its own verification and ends with status -1. -/
theorem C11_single_entry_empty_code (tb : TieBreak) :
    calculateFrequency [5, 5, 5, 5, 5] = [(5, 5)] ∧
      buildHuffmanTree tb [(5, 5)] = some (Node.leaf 5 5) ∧
      generateCodes (some (Node.leaf 5 5)) [] Tables.empty = ⟨[(5, [])], [([], 5)]⟩ ∧
      (codeOf (generateCodes (some (Node.leaf 5 5)) [] Tables.empty).huffmanCode 5).length = 0 ∧
      main tb [5, 5, 5, 5, 5] = some (-1) := by
  have hf : calculateFrequency [5, 5, 5, 5, 5] = [(5, 5)] := by decide
  refine ⟨hf, buildHuffmanTree_single tb (5, 5), by decide, by decide, ?_⟩
  have henc : huffmanEncode tb [5, 5, 5, 5, 5] Tables.empty
      = some (⟨[(5, [])], [([], 5)]⟩, [0, 0, 0, 0]) := by
    simp only [huffmanEncode, hf, buildHuffmanTree_single]
    decide
  have hS : ([5, 5, 5, 5, 5] : List Symbol).isEmpty = false := rfl
  simp only [main, hS, henc]
  decide

/-! ## The frequency table -/

/-- C12. Frequency table: for every byte sequence shorter than `2^31`, the map
`calculateFrequency` returns has distinct keys, its keys are exactly the byte values that occur
in the sequence, each key is mapped to its number of occurrences (so every stored count is at
least 1), the counts sum to the length of the sequence, and the empty sequence gives the empty
map. -/
theorem C12_frequency_table (data : List Symbol) (hlen : data.length < 2147483648) :
    ((calculateFrequency data).map Prod.fst).Nodup ∧
    (∀ k, k ∈ (calculateFrequency data).map Prod.fst ↔ k ∈ data) ∧
    (∀ k, mapFind (calculateFrequency data) k
      = if data.count k = 0 then none else some (data.count k : Int)) ∧
    (∀ e ∈ calculateFrequency data, e.2 = (data.count e.1 : Int) ∧ 1 ≤ e.2) ∧
    ((calculateFrequency data).map Prod.snd).sum = (data.length : Int) ∧
    calculateFrequency [] = [] := by
  obtain ⟨hnd, hfind⟩ := calculateFrequency_spec data
  have hw : ∀ k, wrapInt (data.count k : Int) = (data.count k : Int) := by
    intro k
    have : data.count k ≤ data.length := List.count_le_length k data
    exact wrapInt_of_range _ (by omega) (by omega)
  have hfind1 : ∀ k, mapFind (calculateFrequency data) k
      = if data.count k = 0 then none else some (data.count k : Int) := by
    intro k
    rw [hfind k, hw k]
  refine ⟨hnd, mem_calculateFrequency_keys data, hfind1, ?_, ?_, rfl⟩
  · intro e he
    have h1 := mapFind_of_mem _ e.1 e.2 hnd he
    rw [hfind1 e.1] at h1
    have hk : e.1 ∈ data :=
      (mem_calculateFrequency_keys data e.1).1 (List.mem_map.2 ⟨e, he, rfl⟩)
    have hc : 0 < data.count e.1 := List.count_pos_iff.2 hk
    rw [if_neg (by omega)] at h1
    have h2 : e.2 = (data.count e.1 : Int) := (Option.some.inj h1).symm
    exact ⟨h2, by omega⟩
  · have h := sum_by_frequency data (fun _ => 1) (fun k _ => by rw [hw k])
    simp only [mul_one] at h
    rw [← h]
    simp

/-- Witness for C12 on `[0,0,0,0,1,1,2]`. -/
theorem C12_frequency_table_witness :
    ((calculateFrequency [0, 0, 0, 0, 1, 1, 2]).map Prod.fst).Nodup ∧
    (∀ k, k ∈ (calculateFrequency [0, 0, 0, 0, 1, 1, 2]).map Prod.fst
      ↔ k ∈ ([0, 0, 0, 0, 1, 1, 2] : List Symbol)) ∧
    (∀ k, mapFind (calculateFrequency [0, 0, 0, 0, 1, 1, 2]) k
      = if ([0, 0, 0, 0, 1, 1, 2] : List Symbol).count k = 0 then none
        else some (([0, 0, 0, 0, 1, 1, 2] : List Symbol).count k : Int)) ∧
    (∀ e ∈ calculateFrequency [0, 0, 0, 0, 1, 1, 2],
      e.2 = (([0, 0, 0, 0, 1, 1, 2] : List Symbol).count e.1 : Int) ∧ 1 ≤ e.2) ∧
    ((calculateFrequency [0, 0, 0, 0, 1, 1, 2]).map Prod.snd).sum
      = (([0, 0, 0, 0, 1, 1, 2] : List Symbol).length : Int) ∧
    calculateFrequency [] = [] :=
  C12_frequency_table [0, 0, 0, 0, 1, 1, 2] (by decide)


/-! ## The inverse table -/

theorem mapSet_of_not_mem {κ ν : Type} [DecidableEq κ] (m : List (κ × ν)) (k : κ) (v : ν)
    (h : k ∉ m.map Prod.fst) : mapSet m k v = (k, v) :: m := by
  unfold mapSet
  congr 1
  apply List.filter_eq_self.2
  intro e he
  have : e.1 ≠ k := by
    intro hek
    exact h (List.mem_map.2 ⟨e, he, hek⟩)
  simpa using this

/-- Assignments to distinct new keys put the entries in the map one by one. -/
theorem foldl_mapSet_fresh {κ ν : Type} [DecidableEq κ] (E : List (κ × ν)) :
    ∀ m : List (κ × ν), (E.map Prod.fst).Nodup → (∀ k ∈ E.map Prod.fst, k ∉ m.map Prod.fst) →
      E.foldl (fun m e => mapSet m e.1 e.2) m = E.reverse ++ m := by
  induction E with
  | nil => intro m _ _; rfl
  | cons e es ih =>
    intro m hnd hfresh
    rw [List.map_cons, List.nodup_cons] at hnd
    rw [List.foldl_cons, mapSet_of_not_mem m e.1 e.2 (hfresh e.1 (by simp))]
    rw [ih ((e.1, e.2) :: m) hnd.2 (by
      intro k hk
      simp only [List.map_cons, List.mem_cons, not_or]
      refine ⟨?_, hfresh k (by simp [hk])⟩
      intro hke
      rw [hke] at hk
      exact hnd.1 hk)]
    simp

/-- From empty tables, for a tree whose leaves carry distinct symbols, the two tables are the
paths of the tree, one entry for every leaf. -/
theorem generateCodes_empty_eq (n : Node) (hnd : (n.leaves.map Prod.fst).Nodup) :
    (generateCodes (some n) [] Tables.empty).huffmanCode = n.paths.reverse ∧
    (generateCodes (some n) [] Tables.empty).reverseCode
      = (n.paths.map (fun e => (e.2, e.1))).reverse := by
  have hE : n.paths.map (fun e => (e.1, ([] : Code) ++ e.2)) = n.paths := by simp
  simp only [generateCodes, generateCodesNode_eq, foldl_tables_huffmanCode,
    foldl_tables_reverseCode, hE]
  constructor
  · have := foldl_mapSet_fresh n.paths [] (by rw [paths_keys]; exact hnd) (by simp)
    simpa [Tables.empty] using this
  · have := foldl_mapSet_fresh (n.paths.map (fun e => (e.2, e.1))) []
      (by
        have hk : (n.paths.map (fun e => (e.2, e.1))).map Prod.fst = n.paths.map Prod.snd := by
          simp [Function.comp_def]
        rw [hk]
        exact paths_codes_nodup n) (by simp)
    simpa [Tables.empty] using this

/-- C13. Inverse table: for every frequency table with distinct keys and at least two entries,
and every tie-breaking, after `generateCodes` runs on the tree of `buildHuffmanTree` from empty
tables, `reverseCode[huffmanCode[s]] = s` for every symbol `s` in the forward table,
`huffmanCode[reverseCode[c]] = c` for every bit string `c` in the inverse table, every symbol
of the frequency table is in the forward table, and both tables have exactly one entry for
every symbol of the frequency table. -/
theorem C13_inverse_table (tb : TieBreak) (freqMap : List (Symbol × Int))
    (hkeys : (freqMap.map Prod.fst).Nodup) (h2 : 2 ≤ freqMap.length) :
    ∃ root, buildHuffmanTree tb freqMap = some root ∧
      (∀ s c, mapFind (generateCodes (some root) [] Tables.empty).huffmanCode s = some c →
        mapFind (generateCodes (some root) [] Tables.empty).reverseCode c = some s) ∧
      (∀ c s, mapFind (generateCodes (some root) [] Tables.empty).reverseCode c = some s →
        mapFind (generateCodes (some root) [] Tables.empty).huffmanCode s = some c) ∧
      (∀ s ∈ freqMap.map Prod.fst,
        ∃ c, mapFind (generateCodes (some root) [] Tables.empty).huffmanCode s = some c) ∧
      ((generateCodes (some root) [] Tables.empty).huffmanCode.map Prod.fst).Perm
        (freqMap.map Prod.fst) ∧
      ((generateCodes (some root) [] Tables.empty).reverseCode.map Prod.snd).Perm
        (freqMap.map Prod.fst) ∧
      (generateCodes (some root) [] Tables.empty).huffmanCode.length = freqMap.length ∧
      (generateCodes (some root) [] Tables.empty).reverseCode.length = freqMap.length := by
  have hne : freqMap ≠ [] := by
    intro h; rw [h] at h2; simp at h2
  obtain ⟨root, hroot, hp⟩ := buildHuffmanTree_leaves tb freqMap hne
  have hnd := leaves_keys_nodup freqMap root hp hkeys
  obtain ⟨hhc, hrc⟩ := generateCodes_empty_eq root hnd
  have hpk : (root.paths.map Prod.fst).Perm (freqMap.map Prod.fst) := by
    rw [paths_keys]; exact hp.map Prod.fst
  refine ⟨root, hroot, ?_, ?_, ?_, ?_, ?_, ?_, ?_⟩
  · intro s c h
    exact (reverseCode_empty_iff root s c).2 ((huffmanCode_empty_iff root hnd s c).1 h)
  · intro c s h
    exact (huffmanCode_empty_iff root hnd s c).2 ((reverseCode_empty_iff root s c).1 h)
  · intro s hs
    obtain ⟨e, he, hes⟩ := List.mem_map.1 (hpk.mem_iff.2 hs)
    exact ⟨e.2, (huffmanCode_empty_iff root hnd s e.2).2 (by rw [← hes]; exact he)⟩
  · rw [hhc, List.map_reverse]
    exact (List.reverse_perm _).trans hpk
  · rw [hrc, List.map_reverse, List.map_map]
    exact (List.reverse_perm _).trans hpk
  · rw [hhc, List.length_reverse, ← List.length_map root.paths Prod.fst]
    rw [hpk.length_eq, List.length_map]
  · rw [hrc, List.length_reverse, List.length_map, ← List.length_map root.paths Prod.fst]
    rw [hpk.length_eq, List.length_map]

/-- Witness for C13 on the frequency table of `[0,0,0,0,1,1,2]`. -/
theorem C13_inverse_table_witness :
    ∃ root, buildHuffmanTree (fun _ => 0) [(0, 4), (1, 2), (2, 1)] = some root ∧
      (∀ s c, mapFind (generateCodes (some root) [] Tables.empty).huffmanCode s = some c →
        mapFind (generateCodes (some root) [] Tables.empty).reverseCode c = some s) ∧
      (∀ c s, mapFind (generateCodes (some root) [] Tables.empty).reverseCode c = some s →
        mapFind (generateCodes (some root) [] Tables.empty).huffmanCode s = some c) ∧
      (∀ s ∈ ([(0, 4), (1, 2), (2, 1)] : List (Symbol × Int)).map Prod.fst,
        ∃ c, mapFind (generateCodes (some root) [] Tables.empty).huffmanCode s = some c) ∧
      ((generateCodes (some root) [] Tables.empty).huffmanCode.map Prod.fst).Perm
        (([(0, 4), (1, 2), (2, 1)] : List (Symbol × Int)).map Prod.fst) ∧
      ((generateCodes (some root) [] Tables.empty).reverseCode.map Prod.snd).Perm
        (([(0, 4), (1, 2), (2, 1)] : List (Symbol × Int)).map Prod.fst) ∧
      (generateCodes (some root) [] Tables.empty).huffmanCode.length
        = ([(0, 4), (1, 2), (2, 1)] : List (Symbol × Int)).length ∧
      (generateCodes (some root) [] Tables.empty).reverseCode.length
        = ([(0, 4), (1, 2), (2, 1)] : List (Symbol × Int)).length :=
  C13_inverse_table (fun _ => 0) [(0, 4), (1, 2), (2, 1)] (by decide) (by decide)


/-! ## The integrity check -/

/-- The loop of `verifyData` on sequences of equal length, started at index `k`: it reports
nothing exactly when the sequences are equal, and otherwise reports `k` plus the first
position at which they differ. -/
theorem verifyMismatch_spec (a : List Symbol) :
    ∀ (b : List Symbol) (k : Nat), a.length = b.length →
      (verifyMismatch a b k = none ↔ a = b) ∧
      ∀ i, verifyMismatch a b k = some i →
        k ≤ i ∧ i - k < a.length ∧ a[i - k]? ≠ b[i - k]? ∧ ∀ j, j < i - k → a[j]? = b[j]? := by
  induction a with
  | nil =>
    intro b k hlen
    cases b with
    | nil => simp [verifyMismatch]
    | cons y ys => simp at hlen
  | cons x xs ih =>
    intro b k hlen
    cases b with
    | nil => simp at hlen
    | cons y ys =>
      simp only [List.length_cons, Nat.add_right_cancel_iff] at hlen
      by_cases hxy : x = y
      · subst hxy
        obtain ⟨h1, h2⟩ := ih ys (k + 1) hlen
        simp only [verifyMismatch, ne_eq, not_true_eq_false, if_false]
        refine ⟨by rw [h1]; simp, ?_⟩
        intro i hi
        obtain ⟨hk, hlt, hne, hall⟩ := h2 i hi
        have hik : i - k = (i - (k + 1)) + 1 := by omega
        refine ⟨by omega, by simp only [List.length_cons]; omega, ?_, ?_⟩
        · rw [hik]
          simpa using hne
        · intro j hj
          cases j with
          | zero => simp
          | succ j =>
            simp only [List.getElem?_cons_succ]
            exact hall j (by omega)
      · simp only [verifyMismatch, ne_eq, hxy, not_false_eq_true, if_true]
        refine ⟨by simp [hxy], ?_⟩
        intro i hi
        have hi1 : k = i := by simpa using hi
        subst hi1
        refine ⟨le_refl _, by simp, by simp [hxy], ?_⟩
        intro j hj
        omega

/-- C14. Exact-equality check: for all byte sequences `a` and `b`, `verifyData a b` is true if
and only if `a` and `b` have the same length and the same value at every position; and when
the lengths are equal and the sequences differ, the loop reports an index, which is the
smallest index at which they differ. -/
theorem C14_verifyData (a b : List Symbol) :
    (verifyData a b = true ↔ a.length = b.length ∧ ∀ i, i < a.length → a[i]? = b[i]?) ∧
    (a.length = b.length → a ≠ b →
      ∃ i, verifyMismatch a b 0 = some i ∧ i < a.length ∧ a[i]? ≠ b[i]? ∧
        ∀ j, j < i → a[j]? = b[j]?) := by
  have hext : a = b ↔ a.length = b.length ∧ ∀ i, i < a.length → a[i]? = b[i]? := by
    constructor
    · intro h; subst h; exact ⟨rfl, fun _ _ => rfl⟩
    · rintro ⟨hl, hall⟩
      apply List.ext_getElem? 
      intro i
      by_cases hi : i < a.length
      · exact hall i hi
      · rw [List.getElem?_eq_none (by omega), List.getElem?_eq_none (by omega)]
  constructor
  · rw [← hext]
    by_cases hlen : a.length = b.length
    · have h1 := (verifyMismatch_spec a b 0 hlen).1
      simp only [verifyData, hlen, ne_eq, not_true_eq_false, if_false, Option.isNone_iff_eq_none]
      exact h1
    · have hne : a ≠ b := fun h => hlen (by rw [h])
      simp [verifyData, hlen, hne]
  · intro hlen hne
    obtain ⟨h1, h2⟩ := verifyMismatch_spec a b 0 hlen
    cases hv : verifyMismatch a b 0 with
    | none => exact absurd (h1.1 hv) hne
    | some i =>
      obtain ⟨_, hlt, hd, hall⟩ := h2 i hv
      simp only [Nat.sub_zero] at hlt hd hall
      exact ⟨i, rfl, hlt, hd, hall⟩

/-- Witness for C14 on `[1,2,3]` and `[1,5,4]`, which first differ at index 1. -/
theorem C14_verifyData_witness :
    ∃ i, verifyMismatch [1, 2, 3] [1, 5, 4] 0 = some i ∧ i < ([1, 2, 3] : List Symbol).length ∧
      ([1, 2, 3] : List Symbol)[i]? ≠ ([1, 5, 4] : List Symbol)[i]? ∧
      ∀ j, j < i → ([1, 2, 3] : List Symbol)[j]? = ([1, 5, 4] : List Symbol)[j]? :=
  (C14_verifyData [1, 2, 3] [1, 5, 4]).2 (by decide) (by decide)


/-! ## Bounds on the bit count -/

theorem leaves_length_pos (n : Node) : 1 ≤ n.leaves.length := by
  induction n with
  | leaf v f => simp [Node.leaves]
  | inner v f l r ihl _ => simp only [Node.leaves, List.length_append]; omega

/-- A path of a tree is shorter than the number of its leaves. -/
theorem path_length_lt (n : Node) : ∀ e ∈ n.paths, e.2.length + 1 ≤ n.leaves.length := by
  induction n with
  | leaf v f =>
    intro e he
    simp only [Node.paths, List.mem_singleton] at he
    rw [he]
    simp [Node.leaves]
  | inner v f l r ihl ihr =>
    intro e he
    simp only [Node.paths, List.mem_append, List.mem_map] at he
    simp only [Node.leaves, List.length_append]
    rcases he with ⟨x, hx, rfl⟩ | ⟨x, hx, rfl⟩
    · have := ihl x hx
      have := leaves_length_pos r
      simp only [List.length_cons]
      omega
    · have := ihr x hx
      have := leaves_length_pos l
      simp only [List.length_cons]
      omega

theorem length_flatMap_le (data : List Symbol) (code : Symbol → Code) (m : Nat)
    (h : ∀ x ∈ data, (code x).length ≤ m) : (data.flatMap code).length ≤ m * data.length := by
  induction data with
  | nil => simp
  | cons x rest ih =>
    have h1 := h x (List.mem_cons_self _ _)
    have h2 := ih (fun y hy => h y (List.mem_cons_of_mem _ hy))
    simp only [List.flatMap_cons, List.length_append, List.length_cons]
    rw [Nat.mul_succ]
    omega

/-- The frequency map has one entry for every distinct byte value of the data. -/
theorem calculateFrequency_length (data : List Symbol) :
    (calculateFrequency data).length = data.dedup.length := by
  have hp : ((calculateFrequency data).map Prod.fst).Perm data.dedup := by
    apply (List.perm_ext_iff_of_nodup (calculateFrequency_spec data).1 (List.nodup_dedup data)).2
    intro k
    rw [mem_calculateFrequency_keys, List.mem_dedup]
  rw [← hp.length_eq, List.length_map]

theorem wrapInt_le_of_nonneg (x : Int) (h : 0 ≤ x) : wrapInt x ≤ x := by
  unfold wrapInt; omega

/-- The header `huffmanEncode` writes on non-empty data, read back as the decoder reads it, is
the size of the encoded string as an `int`. -/
theorem huffmanEncode_header (tb : TieBreak) (S : List Symbol) (t0 : Tables) (hne : S ≠ []) :
    ∃ t b0 b1 b2 b3 packed, huffmanEncode tb S t0 = some (t, b0 :: b1 :: b2 :: b3 :: packed) ∧
      bytesInt b0 b1 b2 b3 = wrapInt ((encodedString tb S t0).length : Int) ∧
      packed.length = ((encodedString tb S t0).length + 7) / 8 := by
  obtain ⟨root, hroot, _, hnd, hcodes, henc⟩ := huffmanEncode_eq tb S t0 hne
  have hes := encodedString_eq tb S t0 root hroot (by
    intro x hx
    obtain ⟨c, hc1, _⟩ := hcodes x hx
    exact ⟨c, (generateCodes_huffmanCode root t0 x).2 hnd c hc1⟩)
  obtain ⟨b0, b1, b2, b3, hb, hi⟩ := bytesInt_intBytes
    (wrapInt ((S.flatMap (codeOf (generateCodes (some root) [] t0).huffmanCode)).length : Int))
  refine ⟨generateCodes (some root) [] t0, b0, b1, b2, b3,
    packBits (S.flatMap (codeOf (generateCodes (some root) [] t0).huffmanCode)), ?_, ?_, ?_⟩
  · rw [henc, hb]
    rfl
  · rw [hi, hes]
    unfold wrapInt
    omega
  · rw [hes, packBits_length]

/-- On non-empty data every code used has fewer bits than the data has distinct byte values,
so the encoded string has at most that many bits, less one, for every symbol. -/
theorem encodedString_length_le (tb : TieBreak) (S : List Symbol) (t0 : Tables) (hne : S ≠ []) :
    (encodedString tb S t0).length ≤ (S.dedup.length - 1) * S.length := by
  obtain ⟨root, hroot, hp, hnd, hcodes, _⟩ := huffmanEncode_eq tb S t0 hne
  have hes := encodedString_eq tb S t0 root hroot (by
    intro x hx
    obtain ⟨c, hc1, _⟩ := hcodes x hx
    exact ⟨c, (generateCodes_huffmanCode root t0 x).2 hnd c hc1⟩)
  rw [hes]
  apply length_flatMap_le
  intro x hx
  obtain ⟨c, hc1, hc2⟩ := hcodes x hx
  have h1 := path_length_lt root (x, c) hc1
  rw [hp.length_eq, calculateFrequency_length] at h1
  rw [hc2]
  simp only at h1
  omega

/-- C16. Compression sanity: for every input with exactly 4 distinct byte values in which one
value accounts for at least 90% of the positions, and every tie-breaking, the bit count that
`huffmanEncode` declares in the header of the file, divided by the number of input symbols, is
strictly less than 8 (no code of a four-leaf tree has more than 3 bits). -/
theorem C16_compression_sanity (tb : TieBreak) (S : List Symbol)
    (h4 : S.dedup.length = 4) (_h90 : ∃ v, 9 * S.length ≤ 10 * S.count v) :
    ∃ t b0 b1 b2 b3 packed,
      huffmanEncode tb S Tables.empty = some (t, b0 :: b1 :: b2 :: b3 :: packed) ∧
      bytesInt b0 b1 b2 b3 < 8 * (S.length : Int) ∧
      ((bytesInt b0 b1 b2 b3 : Int) : ℚ) / (S.length : ℚ) < 8 := by
  have hne : S ≠ [] := by
    intro h; rw [h] at h4; simp at h4
  have hpos : 0 < S.length := List.length_pos.2 hne
  obtain ⟨t, b0, b1, b2, b3, packed, henc, hhead, _⟩ :=
    huffmanEncode_header tb S Tables.empty hne
  have hle := encodedString_length_le tb S Tables.empty hne
  rw [h4] at hle
  have hw := wrapInt_le_of_nonneg ((encodedString tb S Tables.empty).length : Int) (by omega)
  have hlt : bytesInt b0 b1 b2 b3 < 8 * (S.length : Int) := by
    rw [hhead]
    omega
  refine ⟨t, b0, b1, b2, b3, packed, henc, hlt, ?_⟩
  rw [div_lt_iff₀ (by exact_mod_cast hpos)]
  exact_mod_cast hlt

/-- Witness for C16: thirty symbols, twenty-seven of them the value 0. -/
theorem C16_compression_sanity_witness :
    ∃ t b0 b1 b2 b3 packed,
      huffmanEncode (fun _ => 0) (List.replicate 27 0 ++ [1, 2, 3]) Tables.empty
        = some (t, b0 :: b1 :: b2 :: b3 :: packed) ∧
      bytesInt b0 b1 b2 b3 < 8 * ((List.replicate 27 (0 : Symbol) ++ [1, 2, 3]).length : Int) ∧
      ((bytesInt b0 b1 b2 b3 : Int) : ℚ)
        / ((List.replicate 27 (0 : Symbol) ++ [1, 2, 3]).length : ℚ) < 8 :=
  C16_compression_sanity (fun _ => 0) (List.replicate 27 0 ++ [1, 2, 3]) (by decide)
    ⟨0, by decide⟩


/-! ## Shape of the tree -/

theorem weight_eq_sum (n : Node) : n.weight = (n.leaves.map Prod.snd).sum := by
  induction n with
  | leaf v f => simp [Node.weight, Node.leaves]
  | inner v f l r ihl ihr => simp [Node.weight, Node.leaves, ihl, ihr]

/-- C18. Tree shape invariant: for every non-empty frequency table whose frequencies are small
enough for the `int` sums in the nodes not to overflow (the absolute values sum to less than
`2^31`), and every tie-breaking, `buildHuffmanTree` returns a tree whose leaves are exactly
the entries of the table (one leaf for every entry, holding its symbol and frequency), in
which every inner node has two children, carries the sum of their frequencies, and has a left
child no more frequent than its right child; the frequency of the root is the sum of all
counts in the table. -/
theorem C18_tree_shape (tb : TieBreak) (freqMap : List (Symbol × Int)) (hne : freqMap ≠ [])
    (hbound : (freqMap.map (fun e => e.2.natAbs)).sum < 2147483648) :
    ∃ root, buildHuffmanTree tb freqMap = some root ∧ root.leaves.Perm freqMap ∧
      root.leaves.length = freqMap.length ∧ root.ShapeOk ∧
      root.freq = (freqMap.map Prod.snd).sum := by
  obtain ⟨root, hroot, hp⟩ := buildHuffmanTree_leaves tb freqMap hne
  obtain ⟨root1, hroot1, hinv⟩ := buildHuffmanTree_inv tb
    (fun q => (∀ t ∈ q, t.ShapeOk ∧ t.freq = t.weight) ∧
      (q.map Node.absWeight).sum < 2147483648)
    (by
      rintro q q1 hq ⟨h1, h2⟩
      refine ⟨fun t ht => h1 t (hq.mem_iff.2 ht), ?_⟩
      rw [← (hq.map Node.absWeight).sum_eq]; exact h2)
    (by
      rintro l r rest ⟨h1, h2⟩ hlmin _
      obtain ⟨hsl, hl⟩ := h1 l (by simp)
      obtain ⟨hsr, hr⟩ := h1 r (by simp)
      have hal := natAbs_weight_le l
      have har := natAbs_weight_le r
      simp only [List.map_cons, List.sum_cons] at h2
      have hsum : (l.weight + r.weight).natAbs ≤ l.absWeight + r.absWeight := by
        have := Int.natAbs_add_le l.weight r.weight
        omega
      have hw : wrapInt (l.freq + r.freq) = l.freq + r.freq := by
        rw [hl, hr]
        apply wrapInt_of_range <;> omega
      refine ⟨?_, ?_⟩
      · intro t ht
        rcases List.mem_cons.1 ht with h | h
        · rw [h]
          refine ⟨⟨hw, hlmin r (by simp), hsl, hsr⟩, ?_⟩
          show wrapInt (l.freq + r.freq) = l.weight + r.weight
          rw [hw, hl, hr]
        · exact h1 t (by simp [h])
      · simp only [List.map_cons, List.sum_cons, Node.absWeight]
        omega)
    freqMap hne
    (by
      refine ⟨?_, ?_⟩
      · intro t ht
        obtain ⟨e, _, rfl⟩ := List.mem_map.1 ht
        exact ⟨trivial, rfl⟩
      · rw [List.map_map]
        exact hbound)
  rw [hroot] at hroot1
  cases hroot1
  obtain ⟨hs, hf⟩ := hinv.1 root (by simp)
  refine ⟨root, hroot, hp, hp.length_eq, hs, ?_⟩
  rw [hf, weight_eq_sum]
  exact (hp.map Prod.snd).sum_eq

/-- Witness for C18 on the frequency table of `[0,0,0,0,1,1,2]`. -/
theorem C18_tree_shape_witness :
    ∃ root, buildHuffmanTree (fun _ => 0) [(0, 4), (1, 2), (2, 1)] = some root ∧
      root.leaves.Perm [(0, 4), (1, 2), (2, 1)] ∧
      root.leaves.length = ([(0, 4), (1, 2), (2, 1)] : List (Symbol × Int)).length ∧
      root.ShapeOk ∧
      root.freq = (([(0, 4), (1, 2), (2, 1)] : List (Symbol × Int)).map Prod.snd).sum :=
  C18_tree_shape (fun _ => 0) [(0, 4), (1, 2), (2, 1)] (by decide) (by decide)


/-! ## Code lengths and frequencies -/

/-- The `(frequency, depth)` list of a tree, read off its leaves: the depth of a leaf is the
depth of the root plus the length of the path to the leaf. -/
theorem leafDepths_eq_map (n : Node) :
    ∀ (d : Nat) (g : Symbol → Nat), (∀ e ∈ n.paths, g e.1 = e.2.length) →
      n.leafDepths d = n.leaves.map (fun e => (e.2, d + g e.1)) := by
  induction n with
  | leaf v f =>
    intro d g hg
    have := hg (v, []) (by simp [Node.paths])
    simp only [List.length_nil] at this
    simp [Node.leafDepths, Node.leaves, this]
  | inner v f l r ihl ihr =>
    intro d g hg
    have hmem : ∀ (m : Node) (e : Symbol × Int), e ∈ m.leaves → ∃ p, (e.1, p) ∈ m.paths := by
      intro m e he
      have : e.1 ∈ m.paths.map Prod.fst := by
        rw [paths_keys]; exact List.mem_map.2 ⟨e, he, rfl⟩
      obtain ⟨x, hx, hxe⟩ := List.mem_map.1 this
      exact ⟨x.2, by rw [← hxe]; exact hx⟩
    have hgl : ∀ e ∈ l.paths, g e.1 = e.2.length + 1 := by
      intro e he
      have := hg (e.1, false :: e.2) (by
        simp only [Node.paths, List.mem_append, List.mem_map]
        exact Or.inl ⟨e, he, rfl⟩)
      simpa using this
    have hgr : ∀ e ∈ r.paths, g e.1 = e.2.length + 1 := by
      intro e he
      have := hg (e.1, true :: e.2) (by
        simp only [Node.paths, List.mem_append, List.mem_map]
        exact Or.inr ⟨e, he, rfl⟩)
      simpa using this
    simp only [Node.leafDepths, Node.leaves, List.map_append]
    rw [ihl (d + 1) (fun s => g s - 1) (fun e he => by have := hgl e he; simp only; omega),
      ihr (d + 1) (fun s => g s - 1) (fun e he => by have := hgr e he; simp only; omega)]
    congr 1
    · apply List.map_congr_left
      intro e he
      obtain ⟨p, hp⟩ := hmem l e he
      have h1 := hgl (e.1, p) hp
      simp only at h1
      simp only [Prod.mk.injEq, true_and]
      omega
    · apply List.map_congr_left
      intro e he
      obtain ⟨p, hp⟩ := hmem r e he
      have h1 := hgr (e.1, p) hp
      simp only at h1
      simp only [Prod.mk.injEq, true_and]
      omega

/-- The depth assignment of the tree `generateCodes` walks, read off the frequency table: every
entry with the length of its code. It has Kraft sum 1 and its cost is the weighted path
length of the tree. -/
theorem code_lengths_assignment (freqMap : List (Symbol × Int)) (root : Node)
    (hp : root.leaves.Perm freqMap) (hkeys : (freqMap.map Prod.fst).Nodup) :
    kraft (freqMap.map (fun e => (e.2,
        (codeOf (generateCodes (some root) [] Tables.empty).huffmanCode e.1).length))) = 1 ∧
      cost (freqMap.map (fun e => (e.2,
        (codeOf (generateCodes (some root) [] Tables.empty).huffmanCode e.1).length)))
        = root.wpl := by
  have hnd := leaves_keys_nodup freqMap root hp hkeys
  have hg : ∀ e ∈ root.paths,
      (codeOf (generateCodes (some root) [] Tables.empty).huffmanCode e.1).length = e.2.length := by
    intro e he
    have := (huffmanCode_empty_iff root hnd e.1 e.2).2 he
    simp [codeOf, this]
  have h := leafDepths_eq_map root 0
    (fun s => (codeOf (generateCodes (some root) [] Tables.empty).huffmanCode s).length) hg
  simp only [Nat.zero_add] at h
  have hperm : (root.leafDepths 0).Perm (freqMap.map (fun e => (e.2,
      (codeOf (generateCodes (some root) [] Tables.empty).huffmanCode e.1).length))) := by
    rw [h]
    exact hp.map _
  constructor
  · rw [← kraft_of_depths (hperm.map Prod.snd), kraft_leafDepths]
    simp
  · rw [← cost_perm hperm]
    rfl

/-- C19. Frequency-to-length monotonicity: for every frequency table with distinct keys and at
least two entries whose frequencies are small enough for the `int` sums in the nodes not to
overflow, every tie-breaking, and every two entries `a -> wa` and `b -> wb` of the table with
`wa > wb`, the code `generateCodes` records for `a` is no longer than the code it records for
`b`. Hence a symbol strictly more frequent than every other symbol has a code of least
length. -/
theorem C19_length_monotone (tb : TieBreak) (freqMap : List (Symbol × Int))
    (hkeys : (freqMap.map Prod.fst).Nodup) (h2 : 2 ≤ freqMap.length)
    (hbound : (freqMap.map (fun e => e.2.natAbs)).sum < 2147483648)
    (a b : Symbol) (wa wb : Int) (ha : (a, wa) ∈ freqMap) (hb : (b, wb) ∈ freqMap)
    (hlt : wb < wa) :
    ∃ root ca cb, buildHuffmanTree tb freqMap = some root ∧
      mapFind (generateCodes (some root) [] Tables.empty).huffmanCode a = some ca ∧
      mapFind (generateCodes (some root) [] Tables.empty).huffmanCode b = some cb ∧
      ca.length ≤ cb.length := by
  have hne : freqMap ≠ [] := by
    intro h; rw [h] at h2; simp at h2
  obtain ⟨root, hroot, hp⟩ := buildHuffmanTree_leaves tb freqMap hne
  have hnd := leaves_keys_nodup freqMap root hp hkeys
  have hcode : ∀ s w, (s, w) ∈ freqMap →
      ∃ c, mapFind (generateCodes (some root) [] Tables.empty).huffmanCode s = some c := by
    intro s w hs
    have hs1 : s ∈ root.paths.map Prod.fst := by
      rw [paths_keys]
      exact (hp.map Prod.fst).mem_iff.2 (List.mem_map.2 ⟨(s, w), hs, rfl⟩)
    obtain ⟨e, he, hes⟩ := List.mem_map.1 hs1
    exact ⟨e.2, (huffmanCode_empty_iff root hnd s e.2).2 (by rw [← hes]; exact he)⟩
  obtain ⟨ca, hca⟩ := hcode a wa ha
  obtain ⟨cb, hcb⟩ := hcode b wb hb
  refine ⟨root, ca, cb, hroot, hca, hcb, ?_⟩
  have hga : (codeOf (generateCodes (some root) [] Tables.empty).huffmanCode a).length = ca.length := by
    simp [codeOf, hca]
  have hgb : (codeOf (generateCodes (some root) [] Tables.empty).huffmanCode b).length = cb.length := by
    simp [codeOf, hcb]
  have hab : (b, wb) ≠ (a, wa) := by
    intro h
    have := congrArg Prod.snd h
    simp only at this
    omega
  obtain ⟨R1, hp1⟩ := perm_cons_of_mem ha
  have hb1 : (b, wb) ∈ R1 := by
    rcases List.mem_cons.1 (hp1.mem_iff.1 hb) with h | h
    · exact absurd h hab
    · exact h
  obtain ⟨R, hp2⟩ := perm_cons_of_mem hb1
  have hp3 : freqMap.Perm ((a, wa) :: (b, wb) :: R) := hp1.trans (hp2.cons _)
  obtain ⟨hk, hc⟩ := code_lengths_assignment freqMap root hp hkeys
  have hk1 := kraft_of_depths ((hp3.map (fun e => (e.2,
    (codeOf (generateCodes (some root) [] Tables.empty).huffmanCode e.1).length))).map Prod.snd)
  have hc1 := cost_perm (hp3.map (fun e => (e.2,
    (codeOf (generateCodes (some root) [] Tables.empty).huffmanCode e.1).length)))
  rw [hk] at hk1
  rw [hc] at hc1
  simp only [List.map_cons, hga, hgb, kraft_cons, cost_cons] at hk1 hc1
  obtain ⟨root1, hroot1, hle⟩ := buildHuffmanTree_wpl_le tb freqMap hne hbound
    ((wa, cb.length) :: (wb, ca.length) :: R.map (fun e => (e.2,
      (codeOf (generateCodes (some root) [] Tables.empty).huffmanCode e.1).length)))
    (by
      simp only [kraft_cons]
      linarith)
    (by
      have := (hp3.map Prod.snd).symm
      simpa [Function.comp_def] using this)
  rw [hroot] at hroot1
  cases hroot1
  simp only [cost_cons] at hle
  by_contra hcon
  have h1 : (cb.length : Int) < (ca.length : Int) := by omega
  nlinarith [mul_pos (sub_pos.2 hlt) (sub_pos.2 h1)]

/-- Witness for C19 on the frequency table of `[0,0,0,0,1,1,2]`: symbol 0, more frequent than
symbol 2, has a code no longer than that of symbol 2. -/
theorem C19_length_monotone_witness :
    ∃ root ca cb, buildHuffmanTree (fun _ => 0) [(0, 4), (1, 2), (2, 1)] = some root ∧
      mapFind (generateCodes (some root) [] Tables.empty).huffmanCode 0 = some ca ∧
      mapFind (generateCodes (some root) [] Tables.empty).huffmanCode 2 = some cb ∧
      ca.length ≤ cb.length :=
  C19_length_monotone (fun _ => 0) [(0, 4), (1, 2), (2, 1)] (by decide) (by decide) (by decide)
    0 2 4 1 (by decide) (by decide) (by decide)


/-! ## No expansion -/

theorem sum_half_pow_le (D : List Nat) (h : ∀ d ∈ D, 8 ≤ d) :
    (D.map (fun d => (1 / 2 : ℚ) ^ d)).sum ≤ (D.length : ℚ) * (1 / 2 : ℚ) ^ 8 := by
  induction D with
  | nil => simp
  | cons d D ih =>
    have h1 : (1 / 2 : ℚ) ^ d ≤ (1 / 2 : ℚ) ^ 8 :=
      pow_le_pow_of_le_one (by norm_num) (by norm_num) (h d (List.mem_cons_self _ _))
    have h2 := ih (fun x hx => h x (List.mem_cons_of_mem _ hx))
    simp only [List.map_cons, List.sum_cons, List.length_cons]
    push_cast
    linarith

/-- For every number of leaves from 1 to 256 there are depths, none above 8, with Kraft sum
1. -/
theorem exists_depths (k : Nat) (h1 : 1 ≤ k) (h256 : k ≤ 256) :
    ∃ D : List Nat, D.length = k ∧ (∀ d ∈ D, d ≤ 8) ∧
      (D.map (fun d => (1 / 2 : ℚ) ^ d)).sum = 1 := by
  induction k, h1 using Nat.le_induction with
  | base => exact ⟨[0], rfl, by simp, by simp⟩
  | succ k hk ih =>
    obtain ⟨D, hlen, hmax, hsum⟩ := ih (by omega)
    have hex : ∃ d ∈ D, d < 8 := by
      by_contra hcon
      push_neg at hcon
      have := sum_half_pow_le D hcon
      rw [hsum, hlen] at this
      have hk1 : (k : ℚ) ≤ 255 := by exact_mod_cast (by omega : k ≤ 255)
      norm_num at this
      linarith
    obtain ⟨d, hd, hd8⟩ := hex
    obtain ⟨R, hp⟩ := perm_cons_of_mem hd
    refine ⟨(d + 1) :: (d + 1) :: R, ?_, ?_, ?_⟩
    · have := hp.length_eq
      simp only [List.length_cons] at this ⊢
      omega
    · intro x hx
      rcases List.mem_cons.1 hx with h | hx
      · omega
      · rcases List.mem_cons.1 hx with h | hx
        · omega
        · exact hmax x (hp.mem_iff.2 (List.mem_cons_of_mem _ hx))
    · have hs := (hp.map (fun d => (1 / 2 : ℚ) ^ d)).sum_eq
      rw [hsum] at hs
      simp only [List.map_cons, List.sum_cons] at hs ⊢
      rw [pow_succ]
      linarith

theorem cost_zip_le (W : List Int) :
    ∀ D : List Nat, (∀ w ∈ W, 0 ≤ w) → (∀ d ∈ D, d ≤ 8) → cost (W.zip D) ≤ 8 * W.sum := by
  induction W with
  | nil => intro D _ _; simp [cost]
  | cons w W ih =>
    intro D hW hD
    cases D with
    | nil =>
      simp only [List.zip_nil_right, List.sum_cons]
      have h0 : cost ([] : List (Int × Nat)) = 0 := rfl
      have hw := hW w (List.mem_cons_self _ _)
      have hs : 0 ≤ W.sum := List.sum_nonneg (fun x hx => hW x (List.mem_cons_of_mem _ hx))
      rw [h0]
      omega
    | cons d D =>
      have hw := hW w (List.mem_cons_self _ _)
      have hd : (d : Int) ≤ 8 := by exact_mod_cast hD d (List.mem_cons_self _ _)
      have := ih D (fun x hx => hW x (List.mem_cons_of_mem _ hx))
        (fun x hx => hD x (List.mem_cons_of_mem _ hx))
      simp only [List.zip_cons_cons, cost_cons, List.sum_cons]
      nlinarith [mul_nonneg hw (sub_nonneg.2 hd)]

/-- For up to 256 non-negative frequencies there is a depth assignment with Kraft sum 1 that
costs at most 8 times their sum. -/
theorem exists_assignment_le (W : List Int) (h1 : 1 ≤ W.length) (h256 : W.length ≤ 256)
    (hW : ∀ w ∈ W, 0 ≤ w) :
    ∃ L : List (Int × Nat), L.map Prod.fst = W ∧ kraft L = 1 ∧ cost L ≤ 8 * W.sum := by
  obtain ⟨D, hlen, hmax, hsum⟩ := exists_depths W.length h1 h256
  refine ⟨W.zip D, List.map_fst_zip _ _ (by omega), ?_, cost_zip_le W D hW hmax⟩
  have e : kraft (W.zip D) = (((W.zip D).map Prod.snd).map (fun d => (1 / 2 : ℚ) ^ d)).sum := by
    simp [kraft, Function.comp_def]
  rw [e, List.map_snd_zip _ _ (by omega), hsum]

/-- The entries of the frequency map of data shorter than `2^31` hold the exact counts. -/
theorem calculateFrequency_counts (data : List Symbol) (hlen : data.length < 2147483648) :
    ∀ e ∈ calculateFrequency data, e.2 = (data.count e.1 : Int) ∧ 1 ≤ e.2 := by
  obtain ⟨hnd, hfind⟩ := calculateFrequency_spec data
  intro e he
  have h1 := mapFind_of_mem _ e.1 e.2 hnd he
  rw [hfind e.1] at h1
  have hk : e.1 ∈ data :=
    (mem_calculateFrequency_keys data e.1).1 (List.mem_map.2 ⟨e, he, rfl⟩)
  have hc : 0 < data.count e.1 := List.count_pos_iff.2 hk
  have hle : data.count e.1 ≤ data.length := List.count_le_length _ _
  rw [if_neg (by omega), wrapInt_of_range _ (by omega) (by omega)] at h1
  have h2 : e.2 = (data.count e.1 : Int) := (Option.some.inj h1).symm
  exact ⟨h2, by omega⟩

theorem wrapInt_count (data : List Symbol) (hlen : data.length < 2147483648) (k : Symbol) :
    wrapInt (data.count k : Int) = (data.count k : Int) := by
  have : data.count k ≤ data.length := List.count_le_length k data
  exact wrapInt_of_range _ (by omega) (by omega)

theorem calculateFrequency_sum (data : List Symbol) (hlen : data.length < 2147483648) :
    ((calculateFrequency data).map Prod.snd).sum = (data.length : Int) := by
  have h := sum_by_frequency data (fun _ => 1) (fun k _ => by rw [wrapInt_count data hlen k])
  simp only [mul_one] at h
  rw [← h]
  simp

theorem sum_natAbs_of_nonneg (W : List Int) (h : ∀ w ∈ W, 0 ≤ w) :
    ((W.map Int.natAbs).sum : Int) = W.sum := by
  induction W with
  | nil => rfl
  | cons w W ih =>
    have hw := h w (List.mem_cons_self _ _)
    have := ih (fun x hx => h x (List.mem_cons_of_mem _ hx))
    simp only [List.map_cons, List.sum_cons]
    rw [Nat.cast_add, Int.natAbs_of_nonneg hw, this]

/-- On non-empty data shorter than `2^31`, encoded from empty tables, the encoded string has
at most 8 bits for every symbol of the data. -/
theorem encodedString_length_le_eight (tb : TieBreak) (S : List Symbol) (hne : S ≠ [])
    (hlen : S.length < 2147483648) :
    (encodedString tb S Tables.empty).length ≤ 8 * S.length := by
  obtain ⟨root, hroot, hp, hnd, hcodes, _⟩ := huffmanEncode_eq tb S Tables.empty hne
  have hes := encodedString_eq tb S Tables.empty root hroot (by
    intro x hx
    obtain ⟨c, hc1, _⟩ := hcodes x hx
    exact ⟨c, (huffmanCode_empty_iff root hnd x c).2 hc1⟩)
  have hkeys := (calculateFrequency_spec S).1
  have hcounts := calculateFrequency_counts S hlen
  have hsum := calculateFrequency_sum S hlen
  have hW : ∀ w ∈ (calculateFrequency S).map Prod.snd, (0 : Int) ≤ w := by
    intro w hw
    obtain ⟨e, he, rfl⟩ := List.mem_map.1 hw
    have := (hcounts e he).2
    omega
  have hfm : calculateFrequency S ≠ [] := calculateFrequency_ne_nil S hne
  have hk1 : 1 ≤ ((calculateFrequency S).map Prod.snd).length := by
    rw [List.length_map]
    exact List.length_pos.2 hfm
  have hk256 : ((calculateFrequency S).map Prod.snd).length ≤ 256 := by
    rw [List.length_map, ← List.length_map (calculateFrequency S) Prod.fst]
    have h := List.Nodup.length_le_card hkeys
    rw [Fintype.card_fin] at h
    exact h
  obtain ⟨L, hL1, hL2, hL3⟩ := exists_assignment_le _ hk1 hk256 hW
  have hbound : ((calculateFrequency S).map (fun e => e.2.natAbs)).sum < 2147483648 := by
    have h1 := sum_natAbs_of_nonneg _ hW
    rw [List.map_map] at h1
    have h2 : ((calculateFrequency S).map (fun e => e.2.natAbs)).sum
        = ((calculateFrequency S).map (Int.natAbs ∘ Prod.snd)).sum := rfl
    rw [h2]
    omega
  obtain ⟨root1, hroot1, hle⟩ := buildHuffmanTree_wpl_le tb (calculateFrequency S) hfm hbound L
    hL2 (by rw [hL1])
  rw [hroot] at hroot1
  cases hroot1
  obtain ⟨_, hc⟩ := code_lengths_assignment (calculateFrequency S) root hp hkeys
  have hB := length_flatMap_int S (codeOf (generateCodes (some root) [] Tables.empty).huffmanCode)
  have hfreq := sum_by_frequency S
    (fun x => ((codeOf (generateCodes (some root) [] Tables.empty).huffmanCode x).length : Int))
    (fun k _ => by rw [wrapInt_count S hlen k])
  have hcost : cost ((calculateFrequency S).map (fun e => (e.2,
      (codeOf (generateCodes (some root) [] Tables.empty).huffmanCode e.1).length)))
      = ((calculateFrequency S).map (fun e => e.2 *
        ((codeOf (generateCodes (some root) [] Tables.empty).huffmanCode e.1).length : Int))).sum := by
    simp [cost, Function.comp_def]
  rw [hes]
  have : ((S.flatMap (codeOf (generateCodes (some root) [] Tables.empty).huffmanCode)).length : Int)
      ≤ 8 * (S.length : Int) := by
    rw [hB, hfreq, ← hcost, hc]
    linarith
  exact_mod_cast this

/-- C20. No expansion of the payload bits: for every non-empty byte sequence `S` of length `n`
and every tie-breaking, the bit count `huffmanEncode` declares in the header of the file it
writes from empty tables is at most `8 * n`; and when `n` is below `2^31`, so that the `int`
counts of the frequency map are exact, the packed bytes that follow the four header bytes
number at most `n`. -/
theorem C20_no_expansion (tb : TieBreak) (S : List Symbol) (hne : S ≠ []) :
    ∃ t b0 b1 b2 b3 packed,
      huffmanEncode tb S Tables.empty = some (t, b0 :: b1 :: b2 :: b3 :: packed) ∧
      bytesInt b0 b1 b2 b3 ≤ 8 * (S.length : Int) ∧
      (S.length < 2147483648 → packed.length ≤ S.length) := by
  obtain ⟨t, b0, b1, b2, b3, packed, henc, hhead, hpacked⟩ :=
    huffmanEncode_header tb S Tables.empty hne
  refine ⟨t, b0, b1, b2, b3, packed, henc, ?_, ?_⟩
  · rw [hhead]
    by_cases hbig : S.length < 268435456
    · have h8 := encodedString_length_le_eight tb S hne (by omega)
      have hw := wrapInt_le_of_nonneg ((encodedString tb S Tables.empty).length : Int) (by omega)
      omega
    · have : wrapInt ((encodedString tb S Tables.empty).length : Int) < 2147483648 := by
        unfold wrapInt; omega
      omega
  · intro hlen
    have h8 := encodedString_length_le_eight tb S hne hlen
    rw [hpacked]
    omega

/-- Witness for C20 on `[0,0,0,0,1,1,2]`. -/
theorem C20_no_expansion_witness :
    ∃ t b0 b1 b2 b3 packed,
      huffmanEncode (fun _ => 0) [0, 0, 0, 0, 1, 1, 2] Tables.empty
        = some (t, b0 :: b1 :: b2 :: b3 :: packed) ∧
      bytesInt b0 b1 b2 b3 ≤ 8 * (([0, 0, 0, 0, 1, 1, 2] : List Symbol).length : Int) ∧
      (([0, 0, 0, 0, 1, 1, 2] : List Symbol).length < 2147483648 →
        packed.length ≤ ([0, 0, 0, 0, 1, 1, 2] : List Symbol).length) :=
  C20_no_expansion (fun _ => 0) [0, 0, 0, 0, 1, 1, 2] (by decide)



/-! ## Tables across calls -/

theorem flatMap_congr_mem (data : List Symbol) (f g : Symbol → Code)
    (h : ∀ x ∈ data, f x = g x) : data.flatMap f = data.flatMap g := by
  induction data with
  | nil => rfl
  | cons x rest ih =>
    simp only [List.flatMap_cons]
    rw [h x (List.mem_cons_self _ _), ih (fun y hy => h y (List.mem_cons_of_mem _ hy))]

/-- The keys of the frequency map are the distinct byte values of the data. -/
theorem calculateFrequency_keys_perm (data : List Symbol) :
    ((calculateFrequency data).map Prod.fst).Perm data.dedup := by
  apply (List.perm_ext_iff_of_nodup (calculateFrequency_spec data).1 (List.nodup_dedup data)).2
  intro k
  rw [mem_calculateFrequency_keys, List.mem_dedup]

/-- C17 (counterexample). After `huffmanEncode` on `[7,8]` and then on `[0,0,0,0,1,1,2]`, the
forward table holds five entries, those of symbols 7 and 8 included, the inverse table still
maps the string `0` to symbol 8, and `huffmanDecode` of the file written for
`[0,0,0,0,1,1,2]` returns `[0,0,0,0,8,0,8,0,8,8]`. -/
theorem C17_session_tables_counterexample :
    huffmanEncode (fun _ => 0) [7, 8] Tables.empty
        = some (⟨[(7, [true]), (8, [false])], [([true], 7), ([false], 8)]⟩, [2, 0, 0, 0, 128]) ∧
      huffmanEncode (fun _ => 0) [0, 0, 0, 0, 1, 1, 2]
          ⟨[(7, [true]), (8, [false])], [([true], 7), ([false], 8)]⟩
        = some (⟨[(0, [true]), (1, [false, true]), (2, [false, false]), (7, [true]), (8, [false])],
            [([true], 0), ([false, true], 1), ([false, false], 2), ([false], 8)]⟩,
            [10, 0, 0, 0, 245, 0]) ∧
      huffmanDecode (some [10, 0, 0, 0, 245, 0])
          ⟨[(0, [true]), (1, [false, true]), (2, [false, false]), (7, [true]), (8, [false])],
            [([true], 0), ([false, true], 1), ([false, false], 2), ([false], 8)]⟩
        = [0, 0, 0, 0, 8, 0, 8, 0, 8, 8] := by
  decide

/-- C17 (amended). The tables are global and never cleared. For all non-empty inputs `S1` and
`S2` and every tie-breaking, after `huffmanEncode` on `S1` from empty tables followed by
`huffmanEncode` on `S2`: the forward table maps every symbol of `S2` to its path in the tree
built for `S2`, the inverse table maps every path of that tree to its symbol, and the file
written for `S2` is the file written for it from empty tables, a call after which both tables
have exactly one entry for every distinct symbol of `S2`; but after the two calls every symbol
that does not occur in `S2` keeps the forward entry the first call left (so every symbol of
`S1` missing from `S2` still has one), and every bit string that is no path of the tree of
`S2` keeps the inverse entry the first call left. -/
theorem C17_session_tables_amended (tb : TieBreak) (S1 S2 : List Symbol)
    (h1 : S1 ≠ []) (h2 : S2 ≠ []) :
    ∃ t1 blob1 t2 blob2 root2,
      huffmanEncode tb S1 Tables.empty = some (t1, blob1) ∧
      huffmanEncode tb S2 t1 = some (t2, blob2) ∧
      buildHuffmanTree tb (calculateFrequency S2) = some root2 ∧
      (∀ s ∈ S2, ∃ c, (s, c) ∈ root2.paths ∧ mapFind t2.huffmanCode s = some c) ∧
      (∀ s c, (s, c) ∈ root2.paths → mapFind t2.reverseCode c = some s) ∧
      (∃ t, huffmanEncode tb S2 Tables.empty = some (t, blob2) ∧
        (t.huffmanCode.map Prod.fst).Perm S2.dedup ∧
        (t.reverseCode.map Prod.snd).Perm S2.dedup) ∧
      (∀ s, s ∉ S2 → mapFind t2.huffmanCode s = mapFind t1.huffmanCode s) ∧
      (∀ s ∈ S1, s ∉ S2 → ∃ c, mapFind t2.huffmanCode s = some c) ∧
      (∀ c, c ∉ root2.paths.map Prod.snd → mapFind t2.reverseCode c = mapFind t1.reverseCode c) := by
  obtain ⟨root1, _, hp1, hnd1, _, henc1⟩ := huffmanEncode_eq tb S1 Tables.empty h1
  obtain ⟨root2, hroot2, hp2, hnd2, hcodes2, henc2⟩ :=
    huffmanEncode_eq tb S2 (generateCodes (some root1) [] Tables.empty) h2
  obtain ⟨root3, hroot3, _, _, hcodes3, henc3⟩ := huffmanEncode_eq tb S2 Tables.empty h2
  rw [hroot2] at hroot3
  cases hroot3
  have hkeys2 : ∀ s, s ∈ root2.leaves.map Prod.fst ↔ s ∈ S2 := by
    intro s
    rw [(hp2.map Prod.fst).mem_iff, mem_calculateFrequency_keys]
  have hstale : ∀ s, s ∉ S2 →
      mapFind (generateCodes (some root2) [] (generateCodes (some root1) [] Tables.empty)).huffmanCode s
        = mapFind (generateCodes (some root1) [] Tables.empty).huffmanCode s := by
    intro s hs
    exact (generateCodes_huffmanCode root2 _ s).1 (fun h => hs ((hkeys2 s).1 h))
  refine ⟨_, _, _, _, root2, henc1, henc2, hroot2, ?_, ?_, ?_, hstale, ?_, ?_⟩
  · intro s hs
    obtain ⟨c, hc1, _⟩ := hcodes2 s hs
    exact ⟨c, hc1, (generateCodes_huffmanCode root2 _ s).2 hnd2 c hc1⟩
  · intro s c hsc
    exact (generateCodes_reverseCode root2 _ c).2 s hsc
  · have hkp : (root2.paths.map Prod.fst).Perm S2.dedup := by
      rw [paths_keys]
      exact (hp2.map Prod.fst).trans (calculateFrequency_keys_perm S2)
    obtain ⟨hhc, hrc⟩ := generateCodes_empty_eq root2 hnd2
    refine ⟨generateCodes (some root2) [] Tables.empty, ?_, ?_, ?_⟩
    swap
    · rw [hhc, List.map_reverse]
      exact (List.reverse_perm _).trans hkp
    swap
    · rw [hrc, List.map_reverse, List.map_map]
      exact (List.reverse_perm _).trans hkp
    rw [henc3]
    have hf : S2.flatMap (codeOf (generateCodes (some root2) [] Tables.empty).huffmanCode)
        = S2.flatMap (codeOf (generateCodes (some root2) []
            (generateCodes (some root1) [] Tables.empty)).huffmanCode) := by
      apply flatMap_congr_mem
      intro x hx
      obtain ⟨c, hc1, hc2⟩ := hcodes2 x hx
      obtain ⟨c3, hc4, hc5⟩ := hcodes3 x hx
      rw [hc2, hc5]
      have e1 := (huffmanCode_empty_iff root2 hnd2 x c).2 hc1
      have e2 := (huffmanCode_empty_iff root2 hnd2 x c3).2 hc4
      rw [e1] at e2
      exact (Option.some.inj e2).symm
    rw [hf]
  · intro s hs1 hs2
    rw [hstale s hs2]
    have hs : s ∈ root1.paths.map Prod.fst := by
      rw [paths_keys, (hp1.map Prod.fst).mem_iff, mem_calculateFrequency_keys]
      exact hs1
    obtain ⟨e, he, hes⟩ := List.mem_map.1 hs
    exact ⟨e.2, (huffmanCode_empty_iff root1 hnd1 s e.2).2 (by rw [← hes]; exact he)⟩
  · intro c hc
    exact (generateCodes_reverseCode root2 _ c).1 hc

/-- Witness for the amended C17 on `[7,8]` followed by `[0,0,0,0,1,1,2]`. -/
theorem C17_session_tables_amended_witness :
    ∃ t1 blob1 t2 blob2 root2,
      huffmanEncode (fun _ => 0) [7, 8] Tables.empty = some (t1, blob1) ∧
      huffmanEncode (fun _ => 0) [0, 0, 0, 0, 1, 1, 2] t1 = some (t2, blob2) ∧
      buildHuffmanTree (fun _ => 0) (calculateFrequency [0, 0, 0, 0, 1, 1, 2]) = some root2 ∧
      (∀ s ∈ ([0, 0, 0, 0, 1, 1, 2] : List Symbol),
        ∃ c, (s, c) ∈ root2.paths ∧ mapFind t2.huffmanCode s = some c) ∧
      (∀ s c, (s, c) ∈ root2.paths → mapFind t2.reverseCode c = some s) ∧
      (∃ t, huffmanEncode (fun _ => 0) [0, 0, 0, 0, 1, 1, 2] Tables.empty = some (t, blob2) ∧
        (t.huffmanCode.map Prod.fst).Perm ([0, 0, 0, 0, 1, 1, 2] : List Symbol).dedup ∧
        (t.reverseCode.map Prod.snd).Perm ([0, 0, 0, 0, 1, 1, 2] : List Symbol).dedup) ∧
      (∀ s, s ∉ ([0, 0, 0, 0, 1, 1, 2] : List Symbol) →
        mapFind t2.huffmanCode s = mapFind t1.huffmanCode s) ∧
      (∀ s ∈ ([7, 8] : List Symbol), s ∉ ([0, 0, 0, 0, 1, 1, 2] : List Symbol) →
        ∃ c, mapFind t2.huffmanCode s = some c) ∧
      (∀ c, c ∉ root2.paths.map Prod.snd →
        mapFind t2.reverseCode c = mapFind t1.reverseCode c) :=
  C17_session_tables_amended (fun _ => 0) [7, 8] [0, 0, 0, 0, 1, 1, 2] (by decide) (by decide)


end Huffman
